import Mathlib

/-!
Verification of the TiffCraft TIFF decoder (shallow embedding).

Source files embedded here:
* `src/include/TiffImage.hpp` — byte-order utilities (`swap16/32/64`, `swap`,
  `swapArray`), stream helpers (`readValue`, `readAt`), `TiffImage::Header`,
  `TiffImage::IFD::Entry`, `TiffImage::IFD`, `TiffImage::read`,
  `readImageStrips`, `readImageTiles`, `load`.
* `src/include/TiffExporter.hpp` — `TiffExporter::copyPixels` and
  `TiffExporter::copyTile` (the pixel decode engine: `process_word`,
  `process_bits`, the row/column/channel loops and the per-row accumulator
  flush).
* The format dispatcher `TiffExporterAny` is used by `examples` and `tests`
  but its definition is not part of the sources available here; it is
  modelled from the specification (see `tryVariants` below).

Modelling conventions:
* Machine integers are `Nat` with explicit `% 2 ^ w` where C++ truncates.
* A byte stream (`std::istream` over a file) is a `List Nat` of byte values
  (each `< 256`, carried as hypotheses where needed) plus explicit positions.
* Reads past the end of the stream are modelled as an I/O error
  (`TErr.ioFailure`).  In C++ a short `read` leaves the stream in a fail
  state which raises on the following stream operation; the theorems below
  only quantify over streams long enough for this difference to be
  invisible, or condition on a successful parse.
* Host byte order is a parameter `hl : Bool` (`true` = little endian);
  `std::endian::native` is a compile-time constant in the source, so every
  definition takes it as an argument.
-/

namespace TiffCraft

/-! ## Byte-order swap primitives

Embedding of the fallback (non-`std::byteswap`) branch of `swap16`,
`swap32`, `swap64` in `src/include/TiffImage.hpp`.  The C++ operands are
`uint16_t`/`uint32_t`/`uint64_t`; shifts truncate to the operand width (for
`uint16_t` the operands promote to `int` and the result is truncated back to
16 bits on return). -/

/-- Embedding of `swap16(uint16_t)`: `(val << 8) | (val >> 8)` truncated to
16 bits on return. -/
def swap16 (v : Nat) : Nat := ((v <<< 8) ||| (v >>> 8)) % 2 ^ 16

/-- Embedding of `swap32(uint32_t)`: four shifted-and-masked pieces ored
together; the shifts happen in 32-bit arithmetic. -/
def swap32 (v : Nat) : Nat :=
  (((v <<< 24) % 2 ^ 32) &&& 0xFF000000) |||
  (((v <<< 8) % 2 ^ 32) &&& 0x00FF0000) |||
  ((v >>> 8) &&& 0x0000FF00) |||
  ((v >>> 24) &&& 0x000000FF)

/-- Embedding of `swap64(uint64_t)`: eight shifted-and-masked pieces ored
together; the shifts happen in 64-bit arithmetic. -/
def swap64 (v : Nat) : Nat :=
  (((v <<< 56) % 2 ^ 64) &&& 0xFF00000000000000) |||
  (((v <<< 40) % 2 ^ 64) &&& 0x00FF000000000000) |||
  (((v <<< 24) % 2 ^ 64) &&& 0x0000FF0000000000) |||
  (((v <<< 8) % 2 ^ 64) &&& 0x000000FF00000000) |||
  ((v >>> 8) &&& 0x00000000FF000000) |||
  ((v >>> 24) &&& 0x0000000000FF0000) |||
  ((v >>> 40) &&& 0x000000000000FF00) |||
  ((v >>> 56) &&& 0x00000000000000FF)

/-- Embedding of the `swap<T>` template dispatch keyed by `sizeof(T)`:
2-byte types go through `swap16`, 4-byte through `swap32`, 8-byte through
`swap64`, anything else (the 1-byte types) is returned unchanged. -/
def swapVal (w v : Nat) : Nat :=
  match w with
  | 2 => swap16 v
  | 4 => swap32 v
  | 8 => swap64 v
  | _ => v

/-! ### Arithmetic characterizations of the swaps -/

theorem and_mask255_shift (x k : Nat) :
    x &&& (255 <<< k) = ((x >>> k) % 256) <<< k := by
  apply Nat.eq_of_testBit_eq
  intro j
  have h255 : ∀ i, Nat.testBit 255 i = decide (i < 8) := by
    intro i
    rw [(by norm_num : (255 : Nat) = 2 ^ 8 - 1), Nat.testBit_two_pow_sub_one]
  have h256 : (256 : Nat) = 2 ^ 8 := by norm_num
  rcases Nat.lt_or_ge j k with hj | hj
  · have hk : ¬ (k ≤ j) := by omega
    simp [Nat.testBit_and, Nat.testBit_shiftLeft, hk]
  · have hkj : k + (j - k) = j := by omega
    simp only [Nat.testBit_and, Nat.testBit_shiftLeft, h256,
      Nat.testBit_mod_two_pow, Nat.testBit_shiftRight, h255, hj, hkj]
    by_cases h8 : j - k < 8
    · simp [h8, Bool.and_comm]
    · simp [h8]

theorem or_piece (a b k : Nat) (hb : b < 2 ^ k) :
    (a <<< k) ||| b = a * 2 ^ k + b := by
  rw [Nat.shiftLeft_eq, mul_comm a (2 ^ k), ← Nat.mul_add_lt_is_or hb a]

theorem swap16_eq {v : Nat} (hv : v < 2 ^ 16) :
    swap16 v = (v % 2 ^ 8) * 2 ^ 8 + v / 2 ^ 8 := by
  have h1 : v <<< 8 = v * 2 ^ 8 := Nat.shiftLeft_eq v 8
  have h2 : v >>> 8 = v / 2 ^ 8 := Nat.shiftRight_eq_div_pow v 8
  have hlt : v / 2 ^ 8 < 2 ^ 8 := by omega
  have hor : v * 2 ^ 8 ||| v / 2 ^ 8 = v * 2 ^ 8 + v / 2 ^ 8 := by
    rw [mul_comm]
    exact (Nat.mul_add_lt_is_or hlt v).symm
  rw [swap16, h1, h2, hor]
  have hsplit : v = (v / 2 ^ 8) * 2 ^ 8 + v % 2 ^ 8 := by omega
  have heq : v * 2 ^ 8 + v / 2 ^ 8 =
      ((v % 2 ^ 8) * 2 ^ 8 + v / 2 ^ 8) + (v / 2 ^ 8) * 2 ^ 16 := by
    nlinarith [hsplit]
  rw [heq, Nat.add_mul_mod_self_right]
  apply Nat.mod_eq_of_lt
  have h8 : v % 2 ^ 8 < 2 ^ 8 := Nat.mod_lt _ (by norm_num)
  nlinarith

theorem swap32_eq {v : Nat} (hv : v < 2 ^ 32) :
    swap32 v = (v % 2 ^ 8) * 2 ^ 24 + (v / 2 ^ 8 % 2 ^ 8) * 2 ^ 16 +
      (v / 2 ^ 16 % 2 ^ 8) * 2 ^ 8 + v / 2 ^ 24 := by
  have hA : ((v <<< 24) % 2 ^ 32) &&& 0xFF000000 = (v % 2 ^ 8) <<< 24 := by
    rw [(by norm_num [Nat.shiftLeft_eq] : (0xFF000000 : Nat) = 255 <<< 24), and_mask255_shift]
    congr 1
    rw [Nat.shiftLeft_eq, Nat.shiftRight_eq_div_pow]
    norm_num
    omega
  have hB : ((v <<< 8) % 2 ^ 32) &&& 0x00FF0000 = (v / 2 ^ 8 % 2 ^ 8) <<< 16 := by
    rw [(by norm_num [Nat.shiftLeft_eq] : (0x00FF0000 : Nat) = 255 <<< 16), and_mask255_shift]
    congr 1
    rw [Nat.shiftLeft_eq, Nat.shiftRight_eq_div_pow]
    norm_num
    omega
  have hC : (v >>> 8) &&& 0x0000FF00 = (v / 2 ^ 16 % 2 ^ 8) <<< 8 := by
    rw [(by norm_num [Nat.shiftLeft_eq] : (0x0000FF00 : Nat) = 255 <<< 8), and_mask255_shift]
    congr 1
    rw [Nat.shiftRight_eq_div_pow, Nat.shiftRight_eq_div_pow]
    norm_num
    omega
  have hD : (v >>> 24) &&& 0x000000FF = v / 2 ^ 24 := by
    rw [(by norm_num : (0x000000FF : Nat) = 2 ^ 8 - 1),
      Nat.and_pow_two_sub_one_eq_mod, Nat.shiftRight_eq_div_pow]
    norm_num
    omega
  rw [swap32, hA, hB, hC, hD, Nat.or_assoc, Nat.or_assoc]
  have hc : v / 2 ^ 16 % 2 ^ 8 < 256 := by
    have := Nat.mod_lt (v / 2 ^ 16) (y := 2 ^ 8) (by norm_num); omega
  have hd : v / 2 ^ 24 < 256 := by omega
  rw [or_piece _ _ 8 (by omega)]
  rw [or_piece _ _ 16 (by omega)]
  rw [or_piece _ _ 24 (by omega)]
  ring

theorem swap64_eq {v : Nat} (hv : v < 2 ^ 64) :
    swap64 v = (v % 2 ^ 8) * 2 ^ 56 + (v / 2 ^ 8 % 2 ^ 8) * 2 ^ 48 +
      (v / 2 ^ 16 % 2 ^ 8) * 2 ^ 40 + (v / 2 ^ 24 % 2 ^ 8) * 2 ^ 32 +
      (v / 2 ^ 32 % 2 ^ 8) * 2 ^ 24 + (v / 2 ^ 40 % 2 ^ 8) * 2 ^ 16 +
      (v / 2 ^ 48 % 2 ^ 8) * 2 ^ 8 + v / 2 ^ 56 := by
  have h1 : ((v <<< 56) % 2 ^ 64) &&& 0xFF00000000000000 = (v % 2 ^ 8) <<< 56 := by
    rw [(by norm_num [Nat.shiftLeft_eq] : (0xFF00000000000000 : Nat) = 255 <<< 56), and_mask255_shift]
    congr 1
    rw [Nat.shiftLeft_eq, Nat.shiftRight_eq_div_pow]
    norm_num
    omega
  have h2 : ((v <<< 40) % 2 ^ 64) &&& 0x00FF000000000000 = (v / 2 ^ 8 % 2 ^ 8) <<< 48 := by
    rw [(by norm_num [Nat.shiftLeft_eq] : (0x00FF000000000000 : Nat) = 255 <<< 48), and_mask255_shift]
    congr 1
    rw [Nat.shiftLeft_eq, Nat.shiftRight_eq_div_pow]
    norm_num
    omega
  have h3 : ((v <<< 24) % 2 ^ 64) &&& 0x0000FF0000000000 = (v / 2 ^ 16 % 2 ^ 8) <<< 40 := by
    rw [(by norm_num [Nat.shiftLeft_eq] : (0x0000FF0000000000 : Nat) = 255 <<< 40), and_mask255_shift]
    congr 1
    rw [Nat.shiftLeft_eq, Nat.shiftRight_eq_div_pow]
    norm_num
    omega
  have h4 : ((v <<< 8) % 2 ^ 64) &&& 0x000000FF00000000 = (v / 2 ^ 24 % 2 ^ 8) <<< 32 := by
    rw [(by norm_num [Nat.shiftLeft_eq] : (0x000000FF00000000 : Nat) = 255 <<< 32), and_mask255_shift]
    congr 1
    rw [Nat.shiftLeft_eq, Nat.shiftRight_eq_div_pow]
    norm_num
    omega
  have h5 : (v >>> 8) &&& 0x00000000FF000000 = (v / 2 ^ 32 % 2 ^ 8) <<< 24 := by
    rw [(by norm_num [Nat.shiftLeft_eq] : (0x00000000FF000000 : Nat) = 255 <<< 24), and_mask255_shift]
    congr 1
    rw [Nat.shiftRight_eq_div_pow, Nat.shiftRight_eq_div_pow]
    norm_num
    omega
  have h6 : (v >>> 24) &&& 0x0000000000FF0000 = (v / 2 ^ 40 % 2 ^ 8) <<< 16 := by
    rw [(by norm_num [Nat.shiftLeft_eq] : (0x0000000000FF0000 : Nat) = 255 <<< 16), and_mask255_shift]
    congr 1
    rw [Nat.shiftRight_eq_div_pow, Nat.shiftRight_eq_div_pow]
    norm_num
    omega
  have h7 : (v >>> 40) &&& 0x000000000000FF00 = (v / 2 ^ 48 % 2 ^ 8) <<< 8 := by
    rw [(by norm_num [Nat.shiftLeft_eq] : (0x000000000000FF00 : Nat) = 255 <<< 8), and_mask255_shift]
    congr 1
    rw [Nat.shiftRight_eq_div_pow, Nat.shiftRight_eq_div_pow]
    norm_num
    omega
  have h8 : (v >>> 56) &&& 0x00000000000000FF = v / 2 ^ 56 := by
    rw [(by norm_num : (0x00000000000000FF : Nat) = 2 ^ 8 - 1),
      Nat.and_pow_two_sub_one_eq_mod, Nat.shiftRight_eq_div_pow]
    norm_num
    omega
  rw [swap64, h1, h2, h3, h4, h5, h6, h7, h8,
    Nat.or_assoc, Nat.or_assoc, Nat.or_assoc, Nat.or_assoc, Nat.or_assoc,
    Nat.or_assoc]
  have m1 : v / 2 ^ 8 % 2 ^ 8 < 256 := by
    have := Nat.mod_lt (v / 2 ^ 8) (y := 2 ^ 8) (by norm_num); omega
  have m2 : v / 2 ^ 16 % 2 ^ 8 < 256 := by
    have := Nat.mod_lt (v / 2 ^ 16) (y := 2 ^ 8) (by norm_num); omega
  have m3 : v / 2 ^ 24 % 2 ^ 8 < 256 := by
    have := Nat.mod_lt (v / 2 ^ 24) (y := 2 ^ 8) (by norm_num); omega
  have m4 : v / 2 ^ 32 % 2 ^ 8 < 256 := by
    have := Nat.mod_lt (v / 2 ^ 32) (y := 2 ^ 8) (by norm_num); omega
  have m5 : v / 2 ^ 40 % 2 ^ 8 < 256 := by
    have := Nat.mod_lt (v / 2 ^ 40) (y := 2 ^ 8) (by norm_num); omega
  have m6 : v / 2 ^ 48 % 2 ^ 8 < 256 := by
    have := Nat.mod_lt (v / 2 ^ 48) (y := 2 ^ 8) (by norm_num); omega
  have m7 : v / 2 ^ 56 < 256 := by omega
  rw [or_piece _ _ 8 (by omega)]
  rw [or_piece _ _ 16 (by omega)]
  rw [or_piece _ _ 24 (by omega)]
  rw [or_piece _ _ 32 (by omega)]
  rw [or_piece _ _ 40 (by omega)]
  rw [or_piece _ _ 48 (by omega)]
  rw [or_piece _ _ 56 (by omega)]
  ring

/-! ## TIFF field types

Embedding of `enum class Type` and `typeBytes` (via `TypeTraits`, i.e.
`sizeof` of the native type of each variant). -/

/-- Embedding of `enum class Type` (the 12 TIFF field types). -/
inductive Ty
  | BYTE | ASCII | SHORT | LONG | RATIONAL | SBYTE
  | UNDEFINED | SSHORT | SLONG | SRATIONAL | FLOAT | DOUBLE
deriving DecidableEq, Repr

/-- Embedding of the `static_cast<Type>(uint16_t)` followed by
`dispatchType`: codes 1..12 map to the enum, anything else is unknown
(`dispatchType` throws for it). -/
def tyOfCode (c : Nat) : Option Ty :=
  match c with
  | 1 => some .BYTE
  | 2 => some .ASCII
  | 3 => some .SHORT
  | 4 => some .LONG
  | 5 => some .RATIONAL
  | 6 => some .SBYTE
  | 7 => some .UNDEFINED
  | 8 => some .SSHORT
  | 9 => some .SLONG
  | 10 => some .SRATIONAL
  | 11 => some .FLOAT
  | 12 => some .DOUBLE
  | _ => none

/-- Embedding of `typeBytes` (`sizeof` of the native type per variant). -/
def typeBytes : Ty → Nat
  | .BYTE => 1
  | .ASCII => 1
  | .SHORT => 2
  | .LONG => 4
  | .RATIONAL => 8
  | .SBYTE => 1
  | .UNDEFINED => 1
  | .SSHORT => 2
  | .SLONG => 4
  | .SRATIONAL => 8
  | .FLOAT => 4
  | .DOUBLE => 8

/-! ## Memory layout

A scalar of byte width `w` occupies `w` consecutive bytes; on a
little-endian host the least significant byte comes first, on a big-endian
host last.  `decMem`/`encMem` model `reinterpret_cast` reads and writes of
such scalars (two's-complement signed values are represented by their
unsigned bit pattern). -/

/-- Value of a little-endian byte sequence. -/
def decLE : List Nat → Nat
  | [] => 0
  | b :: bs => b + 256 * decLE bs

/-- Little-endian byte sequence of width `w` for value `v`. -/
def encLE : Nat → Nat → List Nat
  | 0, _ => []
  | w + 1, v => v % 256 :: encLE w (v / 256)

/-- Read a `w`-byte scalar from memory bytes in host order. -/
def decMem (hl : Bool) (bytes : List Nat) : Nat :=
  if hl then decLE bytes else decLE bytes.reverse

/-- Write a `w`-byte scalar to memory bytes in host order. -/
def encMem (hl : Bool) (w v : Nat) : List Nat :=
  if hl then encLE w v else (encLE w v).reverse

theorem decLE_lt {bs : List Nat} (h : ∀ b ∈ bs, b < 256) :
    decLE bs < 2 ^ (8 * bs.length) := by
  induction bs with
  | nil => simp [decLE]
  | cons b bs ih =>
    have hb : b < 256 := h b (List.mem_cons_self _ _)
    have hrest : decLE bs < 2 ^ (8 * bs.length) :=
      ih (fun x hx => h x (List.mem_cons_of_mem _ hx))
    simp only [decLE, List.length_cons]
    have : 2 ^ (8 * (bs.length + 1)) = 256 * 2 ^ (8 * bs.length) := by
      rw [Nat.mul_add, pow_add]; ring
    rw [this]
    omega

theorem decLE_lt_of_le {bs : List Nat} {w : Nat} (h : ∀ b ∈ bs, b < 256)
    (hw : bs.length ≤ w) : decLE bs < 2 ^ (8 * w) := by
  calc decLE bs < 2 ^ (8 * bs.length) := decLE_lt h
  _ ≤ 2 ^ (8 * w) := Nat.pow_le_pow_right (by norm_num) (by omega)

theorem decMem_lt_of_le {hl : Bool} {bs : List Nat} {w : Nat}
    (h : ∀ b ∈ bs, b < 256) (hw : bs.length ≤ w) :
    decMem hl bs < 2 ^ (8 * w) := by
  unfold decMem
  rcases hl with _ | _
  · simp only [if_neg Bool.false_ne_true]
    exact decLE_lt_of_le (by simpa using h) (by simpa using hw)
  · simp only [if_pos rfl]
    exact decLE_lt_of_le h hw

/-! ## Per-element byte swapping of entry values

Embedding of `swapArray(std::byte* arr, Type type, size_t count)`:
the buffer is reinterpreted as an array of `count` scalars of the entry
type; each is read (host order), value-swapped with the `swap<T>` dispatch,
and written back.  Rational types swap their two 4-byte halves
independently; 1-byte types are unchanged. -/

/-- Action of `swap<T>` on the memory bytes of one element of type `ty`:
read the scalar, swap its value, store it back.  The two halves of a
rational are handled like two `uint32_t`/`int32_t` (so is `float` via
`memcpy` to `uint32_t`, and `double` via `uint64_t`). -/
def swapElem (hl : Bool) (ty : Ty) (bytes : List Nat) : List Nat :=
  match ty with
  | .BYTE | .ASCII | .SBYTE | .UNDEFINED => bytes
  | .SHORT | .SSHORT => encMem hl 2 (swap16 (decMem hl bytes))
  | .LONG | .SLONG | .FLOAT => encMem hl 4 (swap32 (decMem hl bytes))
  | .DOUBLE => encMem hl 8 (swap64 (decMem hl bytes))
  | .RATIONAL | .SRATIONAL =>
      encMem hl 4 (swap32 (decMem hl (bytes.take 4))) ++
      encMem hl 4 (swap32 (decMem hl (bytes.drop 4)))

/-- Embedding of `swapArray(std::byte*, Type, size_t)`: swap `count`
consecutive elements of the buffer in place. -/
def swapArrayBytes (hl : Bool) (ty : Ty) : Nat → List Nat → List Nat
  | 0, bytes => bytes
  | c + 1, bytes =>
      swapElem hl ty (bytes.take (typeBytes ty)) ++
      swapArrayBytes hl ty c (bytes.drop (typeBytes ty))

/-! ### The per-element swap is byte reversal (per 4-byte half for
rationals), independent of the host byte order. -/

theorem swap16_val {x y : Nat} (hx : x < 256) (hy : y < 256) :
    swap16 (x + 256 * y) = y + 256 * x := by
  rw [swap16_eq (by omega)]
  have h1 : (x + 256 * y) % 2 ^ 8 = x := by omega
  have h2 : (x + 256 * y) / 2 ^ 8 = y := by omega
  rw [h1, h2]
  ring

theorem swap32_val {a b c d : Nat} (ha : a < 256) (hb : b < 256)
    (hc : c < 256) (hd : d < 256) :
    swap32 (a + 256 * b + 65536 * c + 16777216 * d) =
      d + 256 * c + 65536 * b + 16777216 * a := by
  set v := a + 256 * b + 65536 * c + 16777216 * d with hv
  rw [swap32_eq (by omega)]
  have h1 : v % 2 ^ 8 = a := by omega
  have h2 : v / 2 ^ 8 % 2 ^ 8 = b := by omega
  have h3 : v / 2 ^ 16 % 2 ^ 8 = c := by omega
  have h4 : v / 2 ^ 24 = d := by omega
  rw [h1, h2, h3, h4]
  ring

theorem swap64_val {a b c d e f g h : Nat} (ha : a < 256) (hb : b < 256)
    (hc : c < 256) (hd : d < 256) (he : e < 256) (hf : f < 256)
    (hg : g < 256) (hh : h < 256) :
    swap64 (a + 256 * b + 65536 * c + 16777216 * d + 4294967296 * e +
        1099511627776 * f + 281474976710656 * g + 72057594037927936 * h) =
      h + 256 * g + 65536 * f + 16777216 * e + 4294967296 * d +
        1099511627776 * c + 281474976710656 * b + 72057594037927936 * a := by
  set v := a + 256 * b + 65536 * c + 16777216 * d + 4294967296 * e +
      1099511627776 * f + 281474976710656 * g + 72057594037927936 * h with hv
  rw [swap64_eq (by omega)]
  have h1 : v % 2 ^ 8 = a := by omega
  have h2 : v / 2 ^ 8 % 2 ^ 8 = b := by omega
  have h3 : v / 2 ^ 16 % 2 ^ 8 = c := by omega
  have h4 : v / 2 ^ 24 % 2 ^ 8 = d := by omega
  have h5 : v / 2 ^ 32 % 2 ^ 8 = e := by omega
  have h6 : v / 2 ^ 40 % 2 ^ 8 = f := by omega
  have h7 : v / 2 ^ 48 % 2 ^ 8 = g := by omega
  have h8 : v / 2 ^ 56 = h := by omega
  rw [h1, h2, h3, h4, h5, h6, h7, h8]
  ring

theorem encLE_two {a b : Nat} (ha : a < 256) (hb : b < 256) :
    encLE 2 (a + 256 * b) = [a, b] := by
  simp only [encLE]
  have h1 : (a + 256 * b) % 256 = a := by omega
  have h2 : (a + 256 * b) / 256 % 256 = b := by omega
  have h3 : (a + 256 * b) / 256 / 256 = 0 := by omega
  rw [h1, h2]

theorem encLE_four {a b c d : Nat} (ha : a < 256) (hb : b < 256)
    (hc : c < 256) (hd : d < 256) :
    encLE 4 (a + 256 * b + 65536 * c + 16777216 * d) = [a, b, c, d] := by
  set v := a + 256 * b + 65536 * c + 16777216 * d with hv
  simp only [encLE]
  have h1 : v % 256 = a := by omega
  have h2 : v / 256 % 256 = b := by omega
  have h3 : v / 256 / 256 % 256 = c := by omega
  have h4 : v / 256 / 256 / 256 % 256 = d := by omega
  rw [h1, h2, h3, h4]

theorem encLE_eight {a b c d e f g h : Nat} (ha : a < 256) (hb : b < 256)
    (hc : c < 256) (hd : d < 256) (he : e < 256) (hf : f < 256)
    (hg : g < 256) (hh : h < 256) :
    encLE 8 (a + 256 * b + 65536 * c + 16777216 * d + 4294967296 * e +
        1099511627776 * f + 281474976710656 * g + 72057594037927936 * h) =
      [a, b, c, d, e, f, g, h] := by
  set v := a + 256 * b + 65536 * c + 16777216 * d + 4294967296 * e +
      1099511627776 * f + 281474976710656 * g + 72057594037927936 * h with hv
  simp only [encLE]
  have h1 : v % 256 = a := by omega
  have h2 : v / 256 % 256 = b := by omega
  have h3 : v / 256 / 256 % 256 = c := by omega
  have h4 : v / 256 / 256 / 256 % 256 = d := by omega
  have h5 : v / 256 / 256 / 256 / 256 % 256 = e := by omega
  have h6 : v / 256 / 256 / 256 / 256 / 256 % 256 = f := by omega
  have h7 : v / 256 / 256 / 256 / 256 / 256 / 256 % 256 = g := by omega
  have h8 : v / 256 / 256 / 256 / 256 / 256 / 256 / 256 % 256 = h := by omega
  rw [h1, h2, h3, h4, h5, h6, h7, h8]

/-- Swapping one 2-byte element reverses its bytes, on either host. -/
theorem swapScalar_two (hl : Bool) (b0 b1 : Nat) (h0 : b0 < 256)
    (h1 : b1 < 256) :
    encMem hl 2 (swap16 (decMem hl [b0, b1])) = [b1, b0] := by
  rcases hl with _ | _
  · have hd : decMem false [b0, b1] = b1 + 256 * b0 := by
      simp [decMem, decLE]
    rw [hd, swap16_val h1 h0]
    simp only [encMem, Bool.false_eq_true, if_false]
    rw [encLE_two h0 h1]
    rfl
  · have hd : decMem true [b0, b1] = b0 + 256 * b1 := by
      simp [decMem, decLE]
    rw [hd, swap16_val h0 h1]
    simp only [encMem, if_true]
    rw [encLE_two h1 h0]

/-- Swapping one 4-byte element reverses its bytes, on either host. -/
theorem swapScalar_four (hl : Bool) (b0 b1 b2 b3 : Nat) (h0 : b0 < 256)
    (h1 : b1 < 256) (h2 : b2 < 256) (h3 : b3 < 256) :
    encMem hl 4 (swap32 (decMem hl [b0, b1, b2, b3])) = [b3, b2, b1, b0] := by
  rcases hl with _ | _
  · have hd : decMem false [b0, b1, b2, b3] =
        b3 + 256 * b2 + 65536 * b1 + 16777216 * b0 := by
      simp [decMem, decLE]
      ring
    rw [hd, swap32_val h3 h2 h1 h0]
    simp only [encMem, Bool.false_eq_true, if_false]
    rw [encLE_four h0 h1 h2 h3]
    rfl
  · have hd : decMem true [b0, b1, b2, b3] =
        b0 + 256 * b1 + 65536 * b2 + 16777216 * b3 := by
      simp [decMem, decLE]
      ring
    rw [hd, swap32_val h0 h1 h2 h3]
    simp only [encMem, if_true]
    rw [encLE_four h3 h2 h1 h0]

/-- Swapping one 8-byte element reverses its bytes, on either host. -/
theorem swapScalar_eight (hl : Bool) (b0 b1 b2 b3 b4 b5 b6 b7 : Nat)
    (h0 : b0 < 256) (h1 : b1 < 256) (h2 : b2 < 256) (h3 : b3 < 256)
    (h4 : b4 < 256) (h5 : b5 < 256) (h6 : b6 < 256) (h7 : b7 < 256) :
    encMem hl 8 (swap64 (decMem hl [b0, b1, b2, b3, b4, b5, b6, b7])) =
      [b7, b6, b5, b4, b3, b2, b1, b0] := by
  rcases hl with _ | _
  · have hd : decMem false [b0, b1, b2, b3, b4, b5, b6, b7] =
        b7 + 256 * b6 + 65536 * b5 + 16777216 * b4 + 4294967296 * b3 +
          1099511627776 * b2 + 281474976710656 * b1 +
          72057594037927936 * b0 := by
      simp [decMem, decLE]
      ring
    rw [hd, swap64_val h7 h6 h5 h4 h3 h2 h1 h0]
    simp only [encMem, Bool.false_eq_true, if_false]
    rw [encLE_eight h0 h1 h2 h3 h4 h5 h6 h7]
    rfl
  · have hd : decMem true [b0, b1, b2, b3, b4, b5, b6, b7] =
        b0 + 256 * b1 + 65536 * b2 + 16777216 * b3 + 4294967296 * b4 +
          1099511627776 * b5 + 281474976710656 * b6 +
          72057594037927936 * b7 := by
      simp [decMem, decLE]
      ring
    rw [hd, swap64_val h0 h1 h2 h3 h4 h5 h6 h7]
    simp only [encMem, if_true]
    rw [encLE_eight h7 h6 h5 h4 h3 h2 h1 h0]

/-! ## Binary stream primitives

Embedding of `readValue<T>(stream, mustSwap)` and `readAt` over a byte
stream.  `readValue` copies `sizeof(T)` raw bytes into host memory and then
value-swaps when `mustSwap` is set. -/

/-- Bytes `[pos, pos + n)` of the stream. -/
def bytesAt (file : List Nat) (pos n : Nat) : List Nat := (file.drop pos).take n

/-- Embedding of `readValue<uint16_t>(stream, mustSwap)` at an explicit
position; `none` models a read past the end of the stream. -/
def readU16 (hl ms : Bool) (file : List Nat) (pos : Nat) : Option Nat :=
  if pos + 2 ≤ file.length then
    some ((if ms then swap16 else id) (decMem hl (bytesAt file pos 2)))
  else none

/-- Embedding of `readValue<uint32_t>(stream, mustSwap)` at an explicit
position; `none` models a read past the end of the stream. -/
def readU32 (hl ms : Bool) (file : List Nat) (pos : Nat) : Option Nat :=
  if pos + 4 ≤ file.length then
    some ((if ms then swap32 else id) (decMem hl (bytesAt file pos 4)))
  else none

/-- Error outcomes of the load path.  Each constructor corresponds to one
`throw` site in the source (all `std::runtime_error` with a distinguishing
message); `outOfFuel` marks a non-terminating IFD chain walk and
`emptyAsciiAccess`/`floatOutsideModel` mark behaviour outside the embedding
(an out-of-bounds `values_[valueSize - 1]` access, and the
float-to-integer cast in `copyVector`). -/
inductive TErr
  | ioFailure
  | malformedHeader
  | unknownType
  | invalidValueOffset
  | asciiMissingNul
  | emptyAsciiAccess
  | unsortedDirectory
  | missingTag
  | notConvertible
  | dstSmallerThanSrc
  | floatOutsideModel
  | chunkVectorMismatch
  | invalidChunk
  | unsupportedLayout
  | ifdIndexOutOfBounds
  | outOfFuel
deriving DecidableEq, Repr

/-! ## Header parser -/

/-- Embedding of `TiffImage::Header`. -/
structure THeader where
  littleEndian : Bool
  firstIFDOffset : Nat
deriving DecidableEq, Repr

/-- Embedding of `Header::equalsHostByteOrder()`:
`std::endian::native == byteOrder_`. -/
def THeader.equalsHost (h : THeader) (hl : Bool) : Bool := hl == h.littleEndian

/-- Embedding of `TiffImage::Header::read`: the 16-bit marker is read
without byte-order correction, the magic and first-IFD offset with the
correction derived from the marker. -/
def markerLittle (byteOrder : Nat) : Bool := byteOrder == 0x4949

def headerRead (hl : Bool) (file : List Nat) : Except TErr THeader :=
  match readU16 hl false file 0 with
  | none => .error .ioFailure
  | some byteOrder =>
    if byteOrder ≠ 0x4949 ∧ byteOrder ≠ 0x4D4D then .error .malformedHeader
    else
      match readU16 hl (!(hl == markerLittle byteOrder)) file 2 with
      | none => .error .ioFailure
      | some magic =>
        if magic ≠ 42 then .error .malformedHeader
        else
          match readU32 hl (!(hl == markerLittle byteOrder)) file 4 with
          | none => .error .ioFailure
          | some off =>
            if off < 8 then .error .malformedHeader
            else .ok ⟨markerLittle byteOrder, off⟩

/-! ## Directory entry parser -/

/-- Embedding of `TiffImage::IFD::Entry`. -/
structure TEntry where
  tag : Nat
  ty : Ty
  count : Nat
  values : List Nat
deriving DecidableEq, Repr

/-- Embedding of `TiffImage::IFD::Entry::read`.  Returns the parsed entry
together with the out-of-line value offset that was passed to `readAt`
(`none` when the value was resolved inline from the 4-byte slot).
`valueSize` is computed in `uint32_t` arithmetic as in
`count() * typeBytes(type_)`.  The inline branch reads the 4-byte slot raw
(no byte-order correction) and keeps its first `valueSize` bytes; the
out-of-line branch reads and corrects a 4-byte offset which must be at
least 8 and even.  When `mustSwap` is set the value buffer is then swapped
as an array of `count` elements of the entry type, and ASCII values must
end in a NUL byte. -/
def entryRead (hl ms : Bool) (file : List Nat) (pos : Nat) :
    Except TErr (TEntry × Option Nat) :=
  match readU16 hl ms file pos with
  | none => .error .ioFailure
  | some tag =>
  match readU16 hl ms file (pos + 2) with
  | none => .error .ioFailure
  | some tyCode =>
  match readU32 hl ms file (pos + 4) with
  | none => .error .ioFailure
  | some count =>
  match tyOfCode tyCode with
  | none => .error .unknownType
  | some ty =>
  let valueSize := count * typeBytes ty % 2 ^ 32
  let resolved : Except TErr (List Nat × Option Nat) :=
    if valueSize ≤ 4 then
      if pos + 12 ≤ file.length then
        .ok (bytesAt file (pos + 8) valueSize, none)
      else .error .ioFailure
    else
      match readU32 hl ms file (pos + 8) with
      | none => .error .ioFailure
      | some valueOffset =>
        if valueOffset < 8 ∨ valueOffset % 2 ≠ 0 then .error .invalidValueOffset
        else if valueOffset + valueSize ≤ file.length then
          .ok (bytesAt file valueOffset valueSize, some valueOffset)
        else .error .ioFailure
  match resolved with
  | .error e => .error e
  | .ok (raw, off) =>
  let values := if ms then swapArrayBytes hl ty count raw else raw
  if ty = .ASCII then
    match values.getLast? with
    | some b =>
      if b = 0 then .ok (⟨tag, ty, count, values⟩, off)
      else .error .asciiMissingNul
    | none => .error .emptyAsciiAccess
  else .ok (⟨tag, ty, count, values⟩, off)

/-! ## Directory parser -/

/-- Ordered-map insertion modelling `entries_[entry.tag()] = entry` on a
`std::map<Tag, Entry>`: keys kept sorted, existing keys overwritten. -/
def insertEntry : List (Nat × TEntry) → Nat → TEntry → List (Nat × TEntry)
  | [], t, e => [(t, e)]
  | (t0, e0) :: rest, t, e =>
    if t < t0 then (t, e) :: (t0, e0) :: rest
    else if t = t0 then (t, e) :: rest
    else (t0, e0) :: insertEntry rest t e

/-- Embedding of the entry loop in `TiffImage::IFD::read`: each entry is
parsed, inserted into the map, and only then compared against the
previously read tag (`lastTag` starts at `Tag::Null = 0`); a tag less than
or equal to `lastTag` aborts with `unsortedDirectory`. -/
def ifdEntries (hl ms : Bool) (file : List Nat) :
    Nat → Nat → Nat → List (Nat × TEntry) → Except TErr (List (Nat × TEntry))
  | 0, _, _, acc => .ok acc
  | n + 1, pos, lastTag, acc =>
    match entryRead hl ms file pos with
    | .error e => .error e
    | .ok (entry, _) =>
      let acc' := insertEntry acc entry.tag entry
      if entry.tag ≤ lastTag then .error .unsortedDirectory
      else ifdEntries hl ms file n (pos + 12) entry.tag acc'

/-- Embedding of `TiffImage::IFD::read`: reads the 16-bit entry count and
the entries; also returns the stream position just after the entry table,
where the caller reads the next-IFD offset. -/
def ifdRead (hl ms : Bool) (file : List Nat) (pos : Nat) :
    Except TErr (List (Nat × TEntry) × Nat) :=
  match readU16 hl ms file pos with
  | none => .error .ioFailure
  | some n =>
    match ifdEntries hl ms file n (pos + 2) 0 [] with
    | .error e => .error e
    | .ok entries => .ok (entries, pos + 2 + 12 * n)

/-- Embedding of the `while (offset > 0)` IFD chain walk in
`TiffImage::read`.  `fuel` bounds the walk: the C++ loop does not
terminate on a cyclic offset chain, which `TErr.outOfFuel` marks. -/
def readIFDs (hl ms : Bool) (file : List Nat) :
    Nat → Nat → Except TErr (List (List (Nat × TEntry)))
  | 0, _ => .error .outOfFuel
  | fuel + 1, offset =>
    if offset = 0 then .ok []
    else
      match ifdRead hl ms file offset with
      | .error e => .error e
      | .ok (dir, endPos) =>
        match readU32 hl ms file endPos with
        | none => .error .ioFailure
        | some next =>
          match readIFDs hl ms file fuel next with
          | .error e => .error e
          | .ok rest => .ok (dir :: rest)

/-- Embedding of `TiffImage::read(std::istream&)`: header, byte-order
decision, then the IFD chain. -/
def tiffRead (hl : Bool) (file : List Nat) (fuel : Nat) :
    Except TErr (THeader × List (List (Nat × TEntry))) :=
  match headerRead hl file with
  | .error e => .error e
  | .ok hd =>
    match readIFDs hl (!(hd.equalsHost hl)) file fuel hd.firstIFDOffset with
    | .error e => .error e
    | .ok dirs => .ok (hd, dirs)

/-! ## Strip and tile locator -/

def StripOffsetsTag : Nat := 0x0111
def StripByteCountsTag : Nat := 0x0117
def TileOffsetsTag : Nat := 0x0144
def TileByteCountsTag : Nat := 0x0145

/-- Embedding of `ifd.entries().contains(tag)`. -/
def containsTag (dir : List (Nat × TEntry)) (t : Nat) : Bool :=
  dir.any (fun p => p.1 == t)

/-- Embedding of `ifd.getEntry(tag)` (`none` models the throwing branch). -/
def getEntry (dir : List (Nat × TEntry)) (t : Nat) : Option TEntry :=
  (dir.find? (fun p => p.1 == t)).map Prod.snd

/-- Split a value buffer into `count` elements of `w` bytes each (the
array layout `copyVector` iterates over). -/
def chunksOf (w : Nat) : Nat → List Nat → List (List Nat)
  | 0, _ => []
  | c + 1, bytes => bytes.take w :: chunksOf w c (bytes.drop w)

/-- Conversion of a signed two's-complement scalar of byte width `w` to
`uint32_t` (C++ integral conversion reduces modulo `2 ^ 32`). -/
def signedToU32 (w v : Nat) : Nat :=
  if v < 2 ^ (8 * w - 1) then v else 2 ^ 32 - 2 ^ (8 * w) + v

/-- Embedding of `copyVector<uint32_t>(Type, const std::byte*, size_t,
std::vector<uint32_t>&)`: dispatch on the entry type; rational types and
`std::byte` are not convertible, `double` is wider than the destination,
and each remaining element is `static_cast` to `uint32_t`.  `char` and the
signed integer types sign-extend (char is signed on the reference
platform).  `FLOAT` converts through a floating-point cast which this
embedding does not model; every theorem below excludes it by hypothesis. -/
def copyVectorU32 (hl : Bool) (ty : Ty) (count : Nat) (bytes : List Nat) :
    Except TErr (List Nat) :=
  match ty with
  | .BYTE => .ok ((chunksOf 1 count bytes).map (decMem hl))
  | .ASCII =>
      .ok ((chunksOf 1 count bytes).map (fun b => signedToU32 1 (decMem hl b)))
  | .SHORT => .ok ((chunksOf 2 count bytes).map (decMem hl))
  | .LONG => .ok ((chunksOf 4 count bytes).map (decMem hl))
  | .SBYTE =>
      .ok ((chunksOf 1 count bytes).map (fun b => signedToU32 1 (decMem hl b)))
  | .SSHORT =>
      .ok ((chunksOf 2 count bytes).map (fun b => signedToU32 2 (decMem hl b)))
  | .SLONG => .ok ((chunksOf 4 count bytes).map (decMem hl))
  | .UNDEFINED => .error .notConvertible
  | .RATIONAL => .error .notConvertible
  | .SRATIONAL => .error .notConvertible
  | .DOUBLE => .error .dstSmallerThanSrc
  | .FLOAT => .error .floatOutsideModel

/-- Embedding of the per-chunk loop shared by `readImageStrips` and
`readImageTiles`: each `(offset, byteCount)` pair must satisfy
`offset ≥ 8` and `byteCount > 0`, then the chunk is read with `readAt`. -/
def readChunks (file : List Nat) : List (Nat × Nat) → Except TErr (List (List Nat))
  | [] => .ok []
  | (off, bc) :: rest =>
    if off < 8 ∨ bc = 0 then .error .invalidChunk
    else if off + bc ≤ file.length then
      match readChunks file rest with
      | .error e => .error e
      | .ok cs => .ok (bytesAt file off bc :: cs)
    else .error .ioFailure

/-- Embedding of `TiffImage::readImageStrips`. -/
def readImageStrips (hl : Bool) (file : List Nat)
    (dir : List (Nat × TEntry)) : Except TErr (List (List Nat)) :=
  match getEntry dir StripOffsetsTag with
  | none => .error .missingTag
  | some eo =>
    match copyVectorU32 hl eo.ty eo.count eo.values with
    | .error e => .error e
    | .ok offs =>
      match getEntry dir StripByteCountsTag with
      | none => .error .missingTag
      | some ec =>
        match copyVectorU32 hl ec.ty ec.count ec.values with
        | .error e => .error e
        | .ok cnts =>
          if offs.length ≠ cnts.length then .error .chunkVectorMismatch
          else readChunks file (offs.zip cnts)

/-- Embedding of `TiffImage::readImageTiles`. -/
def readImageTiles (hl : Bool) (file : List Nat)
    (dir : List (Nat × TEntry)) : Except TErr (List (List Nat)) :=
  match getEntry dir TileOffsetsTag with
  | none => .error .missingTag
  | some eo =>
    match copyVectorU32 hl eo.ty eo.count eo.values with
    | .error e => .error e
    | .ok offs =>
      match getEntry dir TileByteCountsTag with
      | none => .error .missingTag
      | some ec =>
        match copyVectorU32 hl ec.ty ec.count ec.values with
        | .error e => .error e
        | .ok cnts =>
          if offs.length ≠ cnts.length then .error .chunkVectorMismatch
          else readChunks file (offs.zip cnts)

/-! ## Load entry point -/

/-- Per-directory body of the `load` loop: organization is decided by tag
presence (`StripOffsets`, else `TileByteCounts`, else unsupported). -/
def loadOne (hl : Bool) (file : List Nat) (dir : List (Nat × TEntry)) :
    Except TErr (List (List Nat)) :=
  if containsTag dir StripOffsetsTag then readImageStrips hl file dir
  else if containsTag dir TileByteCountsTag then readImageTiles hl file dir
  else .error .unsupportedLayout

/-- Embedding of the directory loop in `load`: visits every directory (or
only the requested one), invoking the callback with the resolved chunks.
Returns the callback invocations in order, and the error that aborted the
loop if any. -/
def loadLoop (hl : Bool) (file : List Nat) (ifdIndex : Option Nat) :
    Nat → List (List (Nat × TEntry)) →
      List (Nat × List (List Nat)) × Option TErr
  | _, [] => ([], none)
  | i, d :: rest =>
    if (match ifdIndex with | none => true | some k => k == i) then
      match loadOne hl file d with
      | .error e => ([], some e)
      | .ok chunks =>
        match loadLoop hl file ifdIndex (i + 1) rest with
        | (tr, r) => ((i, chunks) :: tr, r)
    else loadLoop hl file ifdIndex (i + 1) rest

/-- Embedding of `load(stream, callback, params)`: parse the image, reject
an out-of-bounds `params.ifdIndex` before any image data is read, then run
the directory loop.  The first component lists the callback invocations
(directory index and delivered chunks); the second is the propagated
error, if any. -/
def loadModel (hl : Bool) (file : List Nat) (fuel : Nat)
    (ifdIndex : Option Nat) : List (Nat × List (List Nat)) × Option TErr :=
  match tiffRead hl file fuel with
  | .error e => ([], some e)
  | .ok (_, dirs) =>
    match ifdIndex with
    | some k =>
      if k ≥ dirs.length then ([], some .ifdIndexOutOfBounds)
      else loadLoop hl file ifdIndex 0 dirs
    | none => loadLoop hl file ifdIndex 0 dirs

/-! ## Pixel decode engine

Embedding of `TiffExporter::copyPixels` and `TiffExporter::copyTile`.
Both functions contain the same `process_word` / `process_bits` lambdas
over different word sources: `copyPixels` reads through the chunk
`Iterator` (`src.getAs<SrcType>()` then `src.next<SrcType>()`), `copyTile`
through a raw pointer that is rebased at every row (`srcRow`).  The
accumulator algorithm is therefore embedded once, parametrized by a
`next` function producing the next raw source word; `copyPixels`
instantiates it with list consumption and `copyTile` with a positional
read.  The embedded functions return the sequence of decoded sample
values handed to the output functor `op`; the destination addressing is
independent of the processor choice, so this sequence determines the
written pixels. -/

/-- State threaded through the pixel copy loops: the word source (the
`src` iterator of `copyPixels`, or the `srcRow` pointer of `copyTile`)
plus the bit accumulator `countAvail`/`bitsAvail`. -/
structure AccState (α : Type) where
  src : α
  countAvail : Nat
  bitsAvail : Nat
deriving DecidableEq, Repr

/-- Embedding of `process_word`: read one source word, convert it to the
destination type (truncation to `dw` bytes), and byte-swap it as the
destination type when the source byte order differs from host (the C++
applies `swap` to the already-converted `DstType value`). -/
def processWord {α : Type} (next : α → Option (Nat × α)) (dw : Nat)
    (eqHost : Bool) (s : AccState α) : Option (Nat × AccState α) :=
  match next s.src with
  | none => none
  | some (w, a) =>
    let v := w % 2 ^ (8 * dw)
    some (if eqHost then v else swapVal dw v, ⟨a, s.countAvail, s.bitsAvail⟩)

/-- Embedding of the `while (count < bitsPerSample)` loop of
`process_bits`: refill the accumulator from the next source word
(byte-swapped as the source type) when `countAvail` is zero, then draw
`n = min(bitsPerSample - count, countAvail)` bits from the high end of
`bitsAvail` into the value.  All shifts truncate at the respective
C++ operand widths.  The `0 < n` guard is vacuous for every real
instantiation (`sizeof(SrcType) ≥ 1` makes a refilled accumulator
nonempty); its `none` branch marks the never-terminating degenerate
loop. -/
def bitsLoop {α : Type} (next : α → Option (Nat × α)) (sw dw bps : Nat)
    (eqHost : Bool) (count value : Nat) (s : AccState α) :
    Option (Nat × AccState α) :=
  if h : count < bps then
    let refilled : Option (AccState α) :=
      if s.countAvail = 0 then
        match next s.src with
        | none => none
        | some (w, a) => some ⟨a, 8 * sw, if eqHost then w else swapVal sw w⟩
      else some s
    match refilled with
    | none => none
    | some t =>
      let n := min (bps - count) t.countAvail
      if hn : 0 < n then
        let v1 := value <<< n % 2 ^ (8 * dw)
        let v2 := (v1 ||| t.bitsAvail >>> (8 * sw - n)) % 2 ^ (8 * dw)
        bitsLoop next sw dw bps eqHost (count + n) v2
          ⟨t.src, t.countAvail - n, t.bitsAvail <<< n % 2 ^ (8 * sw)⟩
      else none
  else some (value, s)
termination_by bps - count
decreasing_by omega

/-- Embedding of `process_bits`. -/
def processBits {α : Type} (next : α → Option (Nat × α)) (sw dw bps : Nat)
    (eqHost : Bool) (s : AccState α) : Option (Nat × AccState α) :=
  bitsLoop next sw dw bps eqHost 0 0 s

/-- Run `n` iterations of a loop body, concatenating the emitted values. -/
def seqRun {α : Type}
    (step : AccState α → Option (List Nat × AccState α)) :
    Nat → AccState α → Option (List Nat × AccState α)
  | 0, s => some ([], s)
  | n + 1, s =>
    match step s with
    | none => none
    | some (vs, s1) =>
      match seqRun step n s1 with
      | none => none
      | some (rest, s2) => some (vs ++ rest, s2)

/-- Lift a per-sample processor to a loop body emitting one value. -/
def sample1 {α : Type} (proc : AccState α → Option (Nat × AccState α))
    (s : AccState α) : Option (List Nat × AccState α) :=
  match proc s with
  | none => none
  | some (v, s1) => some ([v], s1)

/-- Embedding of the row flush:
`if (countAvail > 0) { countAvail = 0; bitsAvail = 0; }`. -/
def flushRow {α : Type} (s : AccState α) : AccState α :=
  if 0 < s.countAvail then ⟨s.src, 0, 0⟩ else s

/-- Embedding of `loop_by_row_col_chan`: `height` rows of
`width × channels` samples, flushing the accumulator after every row. -/
def loopRowColChan {α : Type}
    (proc : AccState α → Option (Nat × AccState α))
    (height width channels : Nat) :
    AccState α → Option (List Nat × AccState α) :=
  seqRun (fun s =>
    match seqRun (seqRun (sample1 proc) channels) width s with
    | none => none
    | some (vs, s1) => some (vs, flushRow s1)) height

/-- Embedding of `loop_by_chan_row_col`: for every channel, `height` rows
of `width` samples, flushing the accumulator after every row. -/
def loopChanRowCol {α : Type}
    (proc : AccState α → Option (Nat × AccState α))
    (height width channels : Nat) :
    AccState α → Option (List Nat × AccState α) :=
  seqRun (fun s =>
    seqRun (fun s2 =>
      match seqRun (sample1 proc) width s2 with
      | none => none
      | some (vs, s3) => some (vs, flushRow s3)) height s) channels

/-- Word source of `copyPixels`: the chunk `Iterator` abstracted as the
sequence of source words it yields; `none` models
`src == end(imageData)`. -/
def nextWord : List Nat → Option (Nat × List Nat)
  | [] => none
  | w :: ws => some (w, ws)

/-- Embedding of `copyPixels` specialized to a processor: run the planar
or contiguous loop from an empty accumulator and require the source
exhausted afterwards (`src != end(imageData)` raises otherwise). -/
def copyPixelsRun
    (proc : AccState (List Nat) → Option (Nat × AccState (List Nat)))
    (isPlanar : Bool) (height width channels : Nat) (words : List Nat) :
    Option (List Nat) :=
  let run := if isPlanar then loopChanRowCol proc height width channels
             else loopRowColChan proc height width channels
  match run ⟨words, 0, 0⟩ with
  | none => none
  | some (vs, s) => if s.src = [] then some vs else none

/-- Embedding of `copyPixels<SrcType, DstType>`: fast path when
`bitsPerSample` equals the source word width, slow path otherwise. -/
def copyPixels (sw dw bps : Nat) (isPlanar eqHost : Bool)
    (height width channels : Nat) (words : List Nat) : Option (List Nat) :=
  if bps = 8 * sw then
    copyPixelsRun (processWord nextWord dw eqHost)
      isPlanar height width channels words
  else
    copyPixelsRun (processBits nextWord sw dw bps eqHost)
      isPlanar height width channels words

/-- Embedding of a `reinterpret_cast<const SrcType*>` read of `sw` bytes
at byte offset `pos` of the tile buffer (host memory order). -/
def wordAt (hl : Bool) (tile : List Nat) (sw pos : Nat) : Nat :=
  decMem hl (bytesAt tile pos sw)

/-- Word source of `copyTile`: `srcRow` advances by `sizeof(SrcType)`
after every read; reads never fail (the C++ dereferences the buffer
unconditionally). -/
def nextTileWord (hl : Bool) (tile : List Nat) (sw : Nat) (pos : Nat) :
    Option (Nat × Nat) :=
  some (wordAt hl tile sw pos, pos + sw)

/-- Embedding of one row of the `copyTile` loop: `srcRow` is rebased to
the current row pointer, then `tileWidth × channels` samples are decoded
and the accumulator flushed. -/
def tileRow (proc : AccState Nat → Option (Nat × AccState Nat))
    (tw ch base : Nat) (s : AccState Nat) :
    Option (List Nat × AccState Nat) :=
  match seqRun (seqRun (sample1 proc) ch) tw
      ⟨base, s.countAvail, s.bitsAvail⟩ with
  | none => none
  | some (vs, s1) => some (vs, flushRow s1)

/-- Rows loop of `copyTile`: the row pointer `src` advances by
`tileStride` after every row. -/
def tileRows (proc : AccState Nat → Option (Nat × AccState Nat))
    (tw ch stride : Nat) :
    Nat → Nat → AccState Nat → Option (List Nat × AccState Nat)
  | 0, _, s => some ([], s)
  | r + 1, base, s =>
    match tileRow proc tw ch base s with
    | none => none
    | some (vs, s1) =>
      match tileRows proc tw ch stride r (base + stride) s1 with
      | none => none
      | some (rest, s2) => some (vs ++ rest, s2)

/-- Planes loop of `copyTile`: the row pointer keeps advancing across
planes. -/
def tilePlanes (proc : AccState Nat → Option (Nat × AccState Nat))
    (th tw ch stride : Nat) :
    Nat → Nat → AccState Nat → Option (List Nat × AccState Nat)
  | 0, _, s => some ([], s)
  | p + 1, base, s =>
    match tileRows proc tw ch stride th base s with
    | none => none
    | some (vs, s1) =>
      match tilePlanes proc th tw ch stride p (base + th * stride) s1 with
      | none => none
      | some (rest, s2) => some (vs ++ rest, s2)

/-- Embedding of `copyTile` specialized to a processor: the emitted value
sequence, starting at the tile base with an empty accumulator. -/
def copyTileRun (proc : AccState Nat → Option (Nat × AccState Nat))
    (planes th tw ch stride : Nat) : Option (List Nat) :=
  match tilePlanes proc th tw ch stride planes 0 ⟨0, 0, 0⟩ with
  | none => none
  | some (vs, _) => some vs

/-- Embedding of `copyTile<SrcType, DstType>`: fast path when
`bitsPerSample` equals the source word width. -/
def copyTile (hl : Bool) (sw dw bps : Nat) (eqHost : Bool)
    (tile : List Nat) (planes th tw ch stride : Nat) : Option (List Nat) :=
  if bps = 8 * sw then
    copyTileRun (processWord (nextTileWord hl tile sw) dw eqHost)
      planes th tw ch stride
  else
    copyTileRun (processBits (nextTileWord hl tile sw) sw dw bps eqHost)
      planes th tw ch stride

/-! ## Format dispatcher

`TiffExporterAny` is exercised by `examples/tiff_exporter.cpp` and the
tests but its definition is not among the sources here; the dispatcher is
modelled from the specification. -/

/-- Modelled from the spec: outcome of one decode variant attempted by
the format dispatcher (`TiffExporterAny`, whose definition is missing
from `src/`): a variant either produces a pixel buffer, fails with
`FormatNotSupported`, or fails with some other error. -/
inductive VariantOutcome
  | produced (buffer : List Nat)
  | formatNotSupported
  | fatal (e : TErr)
deriving DecidableEq, Repr

/-- Modelled from the spec: the dispatcher attempts its fixed, ordered
sequence of decode variants inside an error boundary; a
`FormatNotSupported` failure (or an empty produced buffer) moves on to
the next variant, any other error propagates immediately, and exhausting
all variants raises a terminal `FormatNotSupported`. -/
def tryVariants : List VariantOutcome → VariantOutcome
  | [] => .formatNotSupported
  | .produced buf :: rest =>
      if buf.isEmpty then tryVariants rest else .produced buf
  | .formatNotSupported :: rest => tryVariants rest
  | .fatal e :: _ => .fatal e

/-! ## Helper lemmas about streams and byte lists -/

theorem bytesAt_subset {file : List Nat} {pos n : Nat} :
    ∀ b ∈ bytesAt file pos n, b ∈ file := by
  intro b hb
  exact List.drop_subset pos file (List.take_subset n _ hb)

theorem bytesAt_length {file : List Nat} {pos n : Nat}
    (h : pos + n ≤ file.length) : (bytesAt file pos n).length = n := by
  simp only [bytesAt, List.length_take, List.length_drop]
  omega

theorem list_two {l : List Nat} (h : l.length = 2) : ∃ a b, l = [a, b] := by
  match l, h with
  | [a, b], _ => exact ⟨a, b, rfl⟩

theorem list_four {l : List Nat} (h : l.length = 4) :
    ∃ a b c d, l = [a, b, c, d] := by
  match l, h with
  | [a, b, c, d], _ => exact ⟨a, b, c, d, rfl⟩

theorem list_eight {l : List Nat} (h : l.length = 8) :
    ∃ a b c d e f g k, l = [a, b, c, d, e, f, g, k] := by
  match l, h with
  | [a, b, c, d, e, f, g, k], _ => exact ⟨a, b, c, d, e, f, g, k, rfl⟩

theorem decLE_two (b0 b1 : Nat) : decLE [b0, b1] = b0 + 256 * b1 := by
  simp [decLE]

theorem decLE_four (b0 b1 b2 b3 : Nat) :
    decLE [b0, b1, b2, b3] = b0 + 256 * b1 + 65536 * b2 + 16777216 * b3 := by
  simp [decLE]
  ring

theorem swap16_decLE_two {b0 b1 : Nat} (h0 : b0 < 256) (h1 : b1 < 256) :
    swap16 (decLE [b0, b1]) = decLE [b1, b0] := by
  rw [decLE_two, decLE_two, swap16_val h0 h1]

theorem swap32_decLE_four {b0 b1 b2 b3 : Nat} (h0 : b0 < 256)
    (h1 : b1 < 256) (h2 : b2 < 256) (h3 : b3 < 256) :
    swap32 (decLE [b0, b1, b2, b3]) = decLE [b3, b2, b1, b0] := by
  rw [decLE_four, decLE_four, swap32_val h0 h1 h2 h3]

/-! ## Byte-order corrected file values (specification side) -/

/-- Value of a 16-bit field in the byte order declared by the file
(`little = true` for an `II` marker). -/
def fileU16 (little : Bool) (bs : List Nat) : Nat :=
  if little then decLE bs else decLE bs.reverse

/-- Value of a 32-bit field in the byte order declared by the file. -/
def fileU32 (little : Bool) (bs : List Nat) : Nat :=
  if little then decLE bs else decLE bs.reverse

/-- Reading a 16-bit value with the must-swap flag derived from the file
order yields the file-order value, independent of the host order. -/
theorem readU16_fileOrder (hl little : Bool) {file : List Nat} {pos : Nat}
    (hbytes : ∀ b ∈ file, b < 256) (hlen : pos + 2 ≤ file.length) :
    readU16 hl (!(hl == little)) file pos =
      some (fileU16 little (bytesAt file pos 2)) := by
  obtain ⟨b0, b1, hb⟩ := list_two (bytesAt_length hlen)
  have hmem : ∀ b ∈ bytesAt file pos 2, b < 256 :=
    fun b hbm => hbytes _ (bytesAt_subset _ hbm)
  rw [hb] at hmem
  have h0 : b0 < 256 := hmem _ (by simp)
  have h1 : b1 < 256 := hmem _ (by simp)
  rw [readU16, if_pos hlen, hb]
  rcases hl with _ | _ <;> rcases little with _ | _ <;>
    simp [fileU16, decMem, swap16_decLE_two h0 h1, swap16_decLE_two h1 h0]

/-- Reading a 32-bit value with the must-swap flag derived from the file
order yields the file-order value, independent of the host order. -/
theorem readU32_fileOrder (hl little : Bool) {file : List Nat} {pos : Nat}
    (hbytes : ∀ b ∈ file, b < 256) (hlen : pos + 4 ≤ file.length) :
    readU32 hl (!(hl == little)) file pos =
      some (fileU32 little (bytesAt file pos 4)) := by
  obtain ⟨b0, b1, b2, b3, hb⟩ := list_four (bytesAt_length hlen)
  have hmem : ∀ b ∈ bytesAt file pos 4, b < 256 :=
    fun b hbm => hbytes _ (bytesAt_subset _ hbm)
  rw [hb] at hmem
  have h0 : b0 < 256 := hmem _ (by simp)
  have h1 : b1 < 256 := hmem _ (by simp)
  have h2 : b2 < 256 := hmem _ (by simp)
  have h3 : b3 < 256 := hmem _ (by simp)
  rw [readU32, if_pos hlen, hb]
  rcases hl with _ | _ <;> rcases little with _ | _ <;>
    simp [fileU32, decMem, swap32_decLE_four h0 h1 h2 h3,
      swap32_decLE_four h3 h2 h1 h0]

/-- Normal form of `Header::read` over a sufficiently long stream: the
marker bytes select the byte order, and the magic and first-IFD offset
are read in the file order. -/
theorem headerRead_eq (hl : Bool) (file : List Nat)
    (hbytes : ∀ b ∈ file, b < 256) (hlen : 8 ≤ file.length) :
    headerRead hl file =
      (if bytesAt file 0 2 = [0x49, 0x49] ∨ bytesAt file 0 2 = [0x4D, 0x4D] then
        if fileU16 (decide (bytesAt file 0 2 = [0x49, 0x49])) (bytesAt file 2 2) = 42 then
          if 8 ≤ fileU32 (decide (bytesAt file 0 2 = [0x49, 0x49])) (bytesAt file 4 4) then
            .ok ⟨decide (bytesAt file 0 2 = [0x49, 0x49]),
              fileU32 (decide (bytesAt file 0 2 = [0x49, 0x49])) (bytesAt file 4 4)⟩
          else .error .malformedHeader
        else .error .malformedHeader
      else .error .malformedHeader) := by
  obtain ⟨b0, b1, hb⟩ := list_two (bytesAt_length (by omega : 0 + 2 ≤ file.length))
  have hmem : ∀ b ∈ bytesAt file 0 2, b < 256 :=
    fun b hbm => hbytes _ (bytesAt_subset _ hbm)
  rw [hb] at hmem
  have h0 : b0 < 256 := hmem _ (by simp)
  have h1 : b1 < 256 := hmem _ (by simp)
  have hraw : readU16 hl false file 0 = some (decMem hl (bytesAt file 0 2)) := by
    rw [readU16, if_pos (by omega)]
    rfl
  have hmarker : decMem hl (bytesAt file 0 2) = b0 + 256 * b1 ∨
      decMem hl (bytesAt file 0 2) = b1 + 256 * b0 := by
    rw [hb]
    rcases hl with _ | _
    · right
      simp [decMem, decLE_two]
    · left
      simp [decMem, decLE_two]
  by_cases hI : bytesAt file 0 2 = [0x49, 0x49]
  · have hbo : decMem hl (bytesAt file 0 2) = 0x4949 := by
      rw [hI] at hmarker ⊢
      rcases hmarker with h | h <;>
        · rw [hI] at hb
          injection hb with e1 e2
          injection e2 with e2 _
          omega
    have hml : markerLittle 0x4949 = true := rfl
    have hdec : decide (bytesAt file 0 2 = [0x49, 0x49]) = true := decide_eq_true hI
    have h16 := readU16_fileOrder hl true hbytes (by omega : 2 + 2 ≤ file.length)
    have h32 := readU32_fileOrder hl true hbytes (by omega : 4 + 4 ≤ file.length)
    rw [headerRead, hraw]
    simp only [hbo, hml, h16, h32, hdec]
    rw [if_neg (by norm_num : ¬((18761 : Nat) ≠ 18761 ∧ (18761 : Nat) ≠ 19789))]
    rw [if_pos (Or.inl hI)]
    by_cases hmag : fileU16 true (bytesAt file 2 2) = 42
    · rw [if_pos hmag, if_neg (not_not_intro hmag)]
      by_cases hoff : 8 ≤ fileU32 true (bytesAt file 4 4)
      · rw [if_pos hoff, if_neg (Nat.not_lt.mpr hoff)]
      · rw [if_neg hoff, if_pos (by omega)]
    · rw [if_neg hmag, if_pos hmag]
  · by_cases hM : bytesAt file 0 2 = [0x4D, 0x4D]
    · have hbo : decMem hl (bytesAt file 0 2) = 0x4D4D := by
        rw [hM] at hmarker ⊢
        rcases hmarker with h | h <;>
          · rw [hM] at hb
            injection hb with e1 e2
            injection e2 with e2 _
            omega
      have hml : markerLittle 0x4D4D = false := rfl
      have hdec : decide (bytesAt file 0 2 = [0x49, 0x49]) = false :=
        decide_eq_false hI
      have h16 := readU16_fileOrder hl false hbytes (by omega : 2 + 2 ≤ file.length)
      have h32 := readU32_fileOrder hl false hbytes (by omega : 4 + 4 ≤ file.length)
      rw [headerRead, hraw]
      simp only [hbo, hml, h16, h32, hdec]
      rw [if_neg (by norm_num : ¬((19789 : Nat) ≠ 18761 ∧ (19789 : Nat) ≠ 19789))]
      rw [if_pos (Or.inr hM)]
      by_cases hmag : fileU16 false (bytesAt file 2 2) = 42
      · rw [if_pos hmag, if_neg (not_not_intro hmag)]
        by_cases hoff : 8 ≤ fileU32 false (bytesAt file 4 4)
        · rw [if_pos hoff, if_neg (Nat.not_lt.mpr hoff)]
        · rw [if_neg hoff, if_pos (by omega)]
      · rw [if_neg hmag, if_pos hmag]
    · have hcond : decMem hl (bytesAt file 0 2) ≠ 0x4949 ∧
          decMem hl (bytesAt file 0 2) ≠ 0x4D4D := by
        constructor <;> intro h2 <;> rcases hmarker with h | h <;> rw [h] at h2
        · exact hI (by
            rw [hb]
            have : b0 = 0x49 ∧ b1 = 0x49 := by omega
            rw [this.1, this.2])
        · exact hI (by
            rw [hb]
            have : b0 = 0x49 ∧ b1 = 0x49 := by omega
            rw [this.1, this.2])
        · exact hM (by
            rw [hb]
            have : b0 = 0x4D ∧ b1 = 0x4D := by omega
            rw [this.1, this.2])
        · exact hM (by
            rw [hb]
            have : b0 = 0x4D ∧ b1 = 0x4D := by omega
            rw [this.1, this.2])
      rw [headerRead, hraw]
      simp only []
      rw [if_pos hcond]
      rw [if_neg (by tauto : ¬(bytesAt file 0 2 = [0x49, 0x49] ∨
          bytesAt file 0 2 = [0x4D, 0x4D]))]

/-- C5: `Header::read` succeeds if and only if the 16-bit byte-order
marker is one of the two reserved patterns (`II` = 0x4949 or `MM` =
0x4D4D), the following 16-bit magic equals 42 after byte-order
correction, and the 32-bit first-directory offset is at least 8; any
violation is an error.  For every accepted header,
`equalsHostByteOrder()` is true exactly when the marker byte order
equals the host byte order. -/
theorem claim_C5_header_read (hl : Bool) (file : List Nat)
    (hbytes : ∀ b ∈ file, b < 256) (hlen : 8 ≤ file.length) :
    ((∃ hd, headerRead hl file = .ok hd) ↔
      ((bytesAt file 0 2 = [0x49, 0x49] ∨ bytesAt file 0 2 = [0x4D, 0x4D]) ∧
        fileU16 (decide (bytesAt file 0 2 = [0x49, 0x49]))
          (bytesAt file 2 2) = 42 ∧
        8 ≤ fileU32 (decide (bytesAt file 0 2 = [0x49, 0x49]))
          (bytesAt file 4 4)))
    ∧ (∀ hd, headerRead hl file = .ok hd →
        hd.littleEndian = decide (bytesAt file 0 2 = [0x49, 0x49]) ∧
        (hd.equalsHost hl = true ↔
          hl = decide (bytesAt file 0 2 = [0x49, 0x49]))) := by
  have heq := headerRead_eq hl file hbytes hlen
  by_cases hmk : bytesAt file 0 2 = [0x49, 0x49] ∨ bytesAt file 0 2 = [0x4D, 0x4D]
  · by_cases hmag : fileU16 (decide (bytesAt file 0 2 = [0x49, 0x49]))
        (bytesAt file 2 2) = 42
    · by_cases hoff : 8 ≤ fileU32 (decide (bytesAt file 0 2 = [0x49, 0x49]))
          (bytesAt file 4 4)
      · rw [if_pos hmk, if_pos hmag, if_pos hoff] at heq
        constructor
        · simp only [heq]
          constructor
          · intro _
            exact ⟨hmk, hmag, hoff⟩
          · intro _
            exact ⟨_, rfl⟩
        · intro hd hok
          rw [heq] at hok
          injection hok with hok
          rw [← hok]
          refine ⟨rfl, ?_⟩
          simp [THeader.equalsHost]
      · rw [if_pos hmk, if_pos hmag, if_neg hoff] at heq
        rw [heq]
        constructor
        · constructor
          · intro ⟨hd, hok⟩
            exact absurd hok (by simp)
          · intro ⟨_, _, h3⟩
            exact absurd h3 hoff
        · intro hd hok
          exact absurd hok (by simp)
    · rw [if_pos hmk, if_neg hmag] at heq
      rw [heq]
      constructor
      · constructor
        · intro ⟨hd, hok⟩
          exact absurd hok (by simp)
        · intro ⟨_, h2, _⟩
          exact absurd h2 hmag
      · intro hd hok
        exact absurd hok (by simp)
  · rw [if_neg hmk] at heq
    rw [heq]
    constructor
    · constructor
      · intro ⟨hd, hok⟩
        exact absurd hok (by simp)
      · intro ⟨h1, _, _⟩
        exact absurd h1 hmk
    · intro hd hok
      exact absurd hok (by simp)

/-- Witness for C5 at a concrete little-endian header. -/
theorem claim_C5_header_read_witness :
    ∃ hd, headerRead true [0x49, 0x49, 42, 0, 8, 0, 0, 0] = .ok hd := by
  have h := claim_C5_header_read true [0x49, 0x49, 42, 0, 8, 0, 0, 0]
    (by decide) (by decide)
  exact h.1.mpr (by decide)

/-! ## Shape of a successful entry parse -/

/-- Every successful `Entry::read` decomposes into the four header fields
plus a raw byte buffer that came either from the inline 4-byte slot (when
the 32-bit `valueSize` is at most 4, with no positioned read) or from a
validated out-of-line offset.  The stored values are the raw bytes,
swapped as an array of the entry type when `mustSwap` is set. -/
theorem entryRead_shape (hl ms : Bool) (file : List Nat) (pos : Nat)
    {e : TEntry} {off : Option Nat}
    (hok : entryRead hl ms file pos = .ok (e, off)) :
    ∃ tag tyc count ty,
      readU16 hl ms file pos = some tag ∧
      readU16 hl ms file (pos + 2) = some tyc ∧
      readU32 hl ms file (pos + 4) = some count ∧
      tyOfCode tyc = some ty ∧
      e.tag = tag ∧ e.ty = ty ∧ e.count = count ∧
      ∃ raw,
        e.values = (if ms then swapArrayBytes hl ty count raw else raw) ∧
        ((off = none ∧ count * typeBytes ty % 2 ^ 32 ≤ 4 ∧
            pos + 12 ≤ file.length ∧
            raw = bytesAt file (pos + 8) (count * typeBytes ty % 2 ^ 32)) ∨
          (∃ voff, off = some voff ∧ 4 < count * typeBytes ty % 2 ^ 32 ∧
            readU32 hl ms file (pos + 8) = some voff ∧ 8 ≤ voff ∧
            voff % 2 = 0 ∧
            raw = bytesAt file voff (count * typeBytes ty % 2 ^ 32))) := by
  unfold entryRead at hok
  cases htag : readU16 hl ms file pos with
  | none => rw [htag] at hok; exact absurd hok (by simp)
  | some tag =>
  rw [htag] at hok
  simp only [] at hok
  cases htyc : readU16 hl ms file (pos + 2) with
  | none => rw [htyc] at hok; exact absurd hok (by simp)
  | some tyc =>
  rw [htyc] at hok
  simp only [] at hok
  cases hcount : readU32 hl ms file (pos + 4) with
  | none => rw [hcount] at hok; exact absurd hok (by simp)
  | some count =>
  rw [hcount] at hok
  simp only [] at hok
  cases hty : tyOfCode tyc with
  | none => rw [hty] at hok; exact absurd hok (by simp)
  | some ty =>
  rw [hty] at hok
  simp only [] at hok
  refine ⟨tag, tyc, count, ty, by first | exact htag | rfl,
    by first | exact htyc | rfl, by first | exact hcount | rfl,
    by first | exact hty | rfl, ?_⟩
  by_cases hsize : count * typeBytes ty % 2 ^ 32 ≤ 4
  · rw [if_pos hsize] at hok
    by_cases hlen : pos + 12 ≤ file.length
    · rw [if_pos hlen] at hok
      simp only [] at hok
      by_cases hascii : ty = .ASCII
      · rw [if_pos hascii] at hok
        cases hlast : (if ms then
            swapArrayBytes hl ty count
              (bytesAt file (pos + 8) (count * typeBytes ty % 2 ^ 32))
          else
            bytesAt file (pos + 8) (count * typeBytes ty % 2 ^ 32)).getLast? with
        | none =>
          rw [hlast] at hok
          exact absurd hok (by simp)
        | some b =>
          rw [hlast] at hok
          simp only [] at hok
          by_cases hz : b = 0
          · rw [if_pos hz] at hok
            injection hok with hok
            injection hok with h1 h2
            rw [← h1, ← h2]
            exact ⟨rfl, rfl, rfl,
              bytesAt file (pos + 8) (count * typeBytes ty % 2 ^ 32), rfl,
              Or.inl ⟨rfl, hsize, hlen, rfl⟩⟩
          · rw [if_neg hz] at hok
            exact absurd hok (by simp)
      · rw [if_neg hascii] at hok
        injection hok with hok
        injection hok with h1 h2
        rw [← h1, ← h2]
        exact ⟨rfl, rfl, rfl,
          bytesAt file (pos + 8) (count * typeBytes ty % 2 ^ 32), rfl,
          Or.inl ⟨rfl, hsize, hlen, rfl⟩⟩
    · rw [if_neg hlen] at hok
      exact absurd hok (by simp)
  · rw [if_neg hsize] at hok
    cases hvo : readU32 hl ms file (pos + 8) with
    | none =>
      rw [hvo] at hok
      exact absurd hok (by simp)
    | some voff =>
      rw [hvo] at hok
      simp only [] at hok
      by_cases hbad : voff < 8 ∨ voff % 2 ≠ 0
      · rw [if_pos hbad] at hok
        exact absurd hok (by simp)
      · rw [if_neg hbad] at hok
        push_neg at hbad
        by_cases hlen : voff + count * typeBytes ty % 2 ^ 32 ≤ file.length
        · rw [if_pos hlen] at hok
          simp only [] at hok
          by_cases hascii : ty = .ASCII
          · rw [if_pos hascii] at hok
            cases hlast : (if ms then
                swapArrayBytes hl ty count
                  (bytesAt file voff (count * typeBytes ty % 2 ^ 32))
              else
                bytesAt file voff (count * typeBytes ty % 2 ^ 32)).getLast? with
            | none =>
              rw [hlast] at hok
              exact absurd hok (by simp)
            | some b =>
              rw [hlast] at hok
              simp only [] at hok
              by_cases hz : b = 0
              · rw [if_pos hz] at hok
                injection hok with hok
                injection hok with h1 h2
                rw [← h1, ← h2]
                exact ⟨rfl, rfl, rfl,
                  bytesAt file voff (count * typeBytes ty % 2 ^ 32), rfl,
                  Or.inr ⟨voff, rfl, by omega, rfl, hbad.1, hbad.2, rfl⟩⟩
              · rw [if_neg hz] at hok
                exact absurd hok (by simp)
          · rw [if_neg hascii] at hok
            injection hok with hok
            injection hok with h1 h2
            rw [← h1, ← h2]
            exact ⟨rfl, rfl, rfl,
              bytesAt file voff (count * typeBytes ty % 2 ^ 32), rfl,
              Or.inr ⟨voff, rfl, by omega, rfl, hbad.1, hbad.2, rfl⟩⟩
        · rw [if_neg hlen] at hok
          exact absurd hok (by simp)

/-- Forward evaluation of `Entry::read` in the inline case for a
non-ASCII type. -/
theorem entryRead_inline_eval (hl ms : Bool) (file : List Nat)
    (pos tag tyc count : Nat) (ty : Ty)
    (htag : readU16 hl ms file pos = some tag)
    (htyc : readU16 hl ms file (pos + 2) = some tyc)
    (hty : tyOfCode tyc = some ty)
    (hcount : readU32 hl ms file (pos + 4) = some count)
    (hsize : count * typeBytes ty % 2 ^ 32 ≤ 4)
    (hlen : pos + 12 ≤ file.length)
    (hascii : ty ≠ .ASCII) :
    entryRead hl ms file pos = .ok
      (⟨tag, ty, count,
        if ms then
          swapArrayBytes hl ty count
            (bytesAt file (pos + 8) (count * typeBytes ty % 2 ^ 32))
        else bytesAt file (pos + 8) (count * typeBytes ty % 2 ^ 32)⟩,
        none) := by
  unfold entryRead
  rw [htag]
  simp only []
  rw [htyc]
  simp only []
  rw [hcount]
  simp only []
  rw [hty]
  simp only []
  rw [if_pos hsize, if_pos hlen]
  simp only []
  rw [if_neg hascii]

/-- Forward evaluation of `Entry::read` when the value is out of line and
the offset fails the validity check. -/
theorem entryRead_badOffset_eval (hl ms : Bool) (file : List Nat)
    (pos tag tyc count voff : Nat) (ty : Ty)
    (htag : readU16 hl ms file pos = some tag)
    (htyc : readU16 hl ms file (pos + 2) = some tyc)
    (hty : tyOfCode tyc = some ty)
    (hcount : readU32 hl ms file (pos + 4) = some count)
    (hsize : 4 < count * typeBytes ty % 2 ^ 32)
    (hvo : readU32 hl ms file (pos + 8) = some voff)
    (hbad : voff < 8 ∨ voff % 2 ≠ 0) :
    entryRead hl ms file pos = .error .invalidValueOffset := by
  unfold entryRead
  rw [htag]
  simp only []
  rw [htyc]
  simp only []
  rw [hcount]
  simp only []
  rw [hty]
  simp only []
  rw [if_neg (by omega), hvo]
  simp only []
  rw [if_pos hbad]

/-- C3 (amended): with `valueSize = count * typeWidth(type)` computed in
32-bit arithmetic, an entry whose `valueSize` is at most 4 resolves its
value bytes from the 4-byte inline slot with no positioned read, while a
larger `valueSize` interprets the slot as a file offset that must be at
least 8 and even (otherwise `Entry::read` fails), from which the value
bytes are read. -/
theorem claim_C3_value_resolution (hl ms : Bool) (file : List Nat)
    (pos tag tyc count : Nat) (ty : Ty)
    (htag : readU16 hl ms file pos = some tag)
    (htyc : readU16 hl ms file (pos + 2) = some tyc)
    (hty : tyOfCode tyc = some ty)
    (hcount : readU32 hl ms file (pos + 4) = some count) :
    (count * typeBytes ty % 2 ^ 32 ≤ 4 →
      ∀ e off, entryRead hl ms file pos = .ok (e, off) →
        off = none ∧
        e.values =
          (if ms then
            swapArrayBytes hl ty count
              (bytesAt file (pos + 8) (count * typeBytes ty % 2 ^ 32))
          else bytesAt file (pos + 8) (count * typeBytes ty % 2 ^ 32)))
    ∧ (4 < count * typeBytes ty % 2 ^ 32 →
        (∀ voff, readU32 hl ms file (pos + 8) = some voff →
          voff < 8 ∨ voff % 2 ≠ 0 →
          entryRead hl ms file pos = .error .invalidValueOffset) ∧
        (∀ e off, entryRead hl ms file pos = .ok (e, off) →
          ∃ voff, readU32 hl ms file (pos + 8) = some voff ∧
            off = some voff ∧ 8 ≤ voff ∧ voff % 2 = 0 ∧
            e.values =
              (if ms then
                swapArrayBytes hl ty count
                  (bytesAt file voff (count * typeBytes ty % 2 ^ 32))
              else bytesAt file voff (count * typeBytes ty % 2 ^ 32)))) := by
  constructor
  · intro hsize e off hok
    obtain ⟨tag2, tyc2, count2, ty2, htag2, htyc2, hcount2, hty2, _, _, _,
      raw, hvals, hcase⟩ := entryRead_shape hl ms file pos hok
    have e1 : tyc2 = tyc := by
      rw [htyc] at htyc2
      exact (Option.some.inj htyc2).symm
    have e2 : count2 = count := by
      rw [hcount] at hcount2
      exact (Option.some.inj hcount2).symm
    have e3 : ty2 = ty := by
      rw [e1, hty] at hty2
      exact (Option.some.inj hty2).symm
    rw [e2, e3] at hcase hvals
    rcases hcase with ⟨hoff, _, _, hraw⟩ | ⟨voff, _, hbig, _⟩
    · rw [hraw] at hvals
      exact ⟨hoff, hvals⟩
    · omega
  · intro hsize
    constructor
    · intro voff hvo hbad
      exact entryRead_badOffset_eval hl ms file pos tag tyc count voff ty
        htag htyc hty hcount hsize hvo hbad
    · intro e off hok
      obtain ⟨tag2, tyc2, count2, ty2, htag2, htyc2, hcount2, hty2, _, _, _,
        raw, hvals, hcase⟩ := entryRead_shape hl ms file pos hok
      have e1 : tyc2 = tyc := by
        rw [htyc] at htyc2
        exact (Option.some.inj htyc2).symm
      have e2 : count2 = count := by
        rw [hcount] at hcount2
        exact (Option.some.inj hcount2).symm
      have e3 : ty2 = ty := by
        rw [e1, hty] at hty2
        exact (Option.some.inj hty2).symm
      rw [e2, e3] at hcase hvals
      rcases hcase with ⟨_, hsmall, _, _⟩ | ⟨voff, hoff, _, hvo, h8, hev, hraw⟩
      · omega
      · rw [hraw] at hvals
        exact ⟨voff, hvo, hoff, h8, hev, hvals⟩

/-- Witness for C3 at a concrete inline SHORT entry. -/
theorem claim_C3_value_resolution_witness :
    (none : Option Nat) = none ∧
    (TEntry.mk 256 .SHORT 1 [7, 0]).values =
      (if false then
        swapArrayBytes true .SHORT 1
          (bytesAt [0, 1, 3, 0, 1, 0, 0, 0, 7, 0, 0, 0] 8
            (1 * typeBytes .SHORT % 2 ^ 32))
      else
        bytesAt [0, 1, 3, 0, 1, 0, 0, 0, 7, 0, 0, 0] 8
          (1 * typeBytes .SHORT % 2 ^ 32)) := by
  exact (claim_C3_value_resolution true false
      [0, 1, 3, 0, 1, 0, 0, 0, 7, 0, 0, 0] 0 256 3 1 .SHORT
      (by rfl) (by rfl) (by rfl) (by rfl)).1 (by decide)
    ⟨256, .SHORT, 1, [7, 0]⟩ none (by rfl)

/-- Counterexample to C3 as stated: for an entry whose mathematical
`count × typeWidth` overflows 32 bits (`count = 2^30`, type `LONG`), the
product exceeds 4 and the 4-byte field holds the odd value 9, so the
claim demands a failed parse through the offset path; `Entry::read`
instead succeeds inline (32-bit `valueSize` is 0) with no positioned
read. -/
theorem claim_C3_counterexample :
    4 < 1073741824 * typeBytes .LONG ∧
    entryRead true false [0, 1, 4, 0, 0, 0, 0, 64, 9, 0, 0, 0] 0 =
      .ok (⟨256, .LONG, 1073741824, []⟩, none) := by
  constructor
  · decide
  · rfl

/-- C9 (amended): `Entry::read` does not validate the count field: an
entry whose 32-bit count is zero (with a known non-ASCII type) parses
successfully, producing an entry with `count = 0` and an empty value
buffer, resolved inline with no positioned read. -/
theorem claim_C9_count_zero_accepted (hl ms : Bool) (file : List Nat)
    (pos tag tyc : Nat) (ty : Ty)
    (htag : readU16 hl ms file pos = some tag)
    (htyc : readU16 hl ms file (pos + 2) = some tyc)
    (hty : tyOfCode tyc = some ty)
    (hcount : readU32 hl ms file (pos + 4) = some 0)
    (hlen : pos + 12 ≤ file.length)
    (hascii : ty ≠ .ASCII) :
    entryRead hl ms file pos = .ok (⟨tag, ty, 0, []⟩, none) := by
  have h := entryRead_inline_eval hl ms file pos tag tyc 0 ty htag htyc hty
    hcount (by simp) hlen hascii
  have hempty : bytesAt file (pos + 8) (0 * typeBytes ty % 2 ^ 32) = [] := by
    simp [bytesAt]
  rw [hempty] at h
  rcases ms with _ | _
  · simpa using h
  · simpa [swapArrayBytes] using h

/-- Witness for C9 at a concrete count-zero LONG entry. -/
theorem claim_C9_count_zero_accepted_witness :
    entryRead true false [0, 1, 4, 0, 0, 0, 0, 0, 0, 0, 0, 0] 0 =
      .ok (⟨256, .LONG, 0, []⟩, none) := by
  exact claim_C9_count_zero_accepted true false
    [0, 1, 4, 0, 0, 0, 0, 0, 0, 0, 0, 0] 0 256 4 .LONG
    (by rfl) (by rfl) (by rfl) (by rfl) (by decide) (by decide)

/-- Counterexample to C9 as stated: a full directory parse accepts a
12-byte entry whose 32-bit count field is 0 — the resulting Directory
holds an entry with `count = 0`, violating the claimed invariant
`count ≥ 1`. -/
theorem claim_C9_counterexample :
    ifdRead true false [1, 0, 0, 1, 4, 0, 0, 0, 0, 0, 0, 0, 0, 0] 0 =
      .ok ([(256, ⟨256, .LONG, 0, []⟩)], 14) ∧
    (TEntry.mk 256 .LONG 0 []).count = 0 := by
  constructor
  · rfl
  · rfl

/-! ## Specification-side description of the per-element swap -/

/-- Per-element byte-order transform as the claim describes it: 1-byte
elements unchanged, 2-, 4- and 8-byte elements byte-reversed, rationals
as two independently reversed 4-byte halves. -/
def specElemSwap : Ty → List Nat → List Nat
  | .BYTE, bs => bs
  | .ASCII, bs => bs
  | .SBYTE, bs => bs
  | .UNDEFINED, bs => bs
  | .SHORT, bs => bs.reverse
  | .SSHORT, bs => bs.reverse
  | .LONG, bs => bs.reverse
  | .SLONG, bs => bs.reverse
  | .FLOAT, bs => bs.reverse
  | .DOUBLE, bs => bs.reverse
  | .RATIONAL, bs => (bs.take 4).reverse ++ (bs.drop 4).reverse
  | .SRATIONAL, bs => (bs.take 4).reverse ++ (bs.drop 4).reverse

/-- The embedded `swap<T>` element action coincides with the claimed
byte-reversal description on well-formed element buffers, independent of
the host byte order. -/
theorem swapElem_spec (hl : Bool) (ty : Ty) (chunk : List Nat)
    (hlenc : chunk.length = typeBytes ty) (hb : ∀ b ∈ chunk, b < 256) :
    swapElem hl ty chunk = specElemSwap ty chunk := by
  cases ty with
  | BYTE => rfl
  | ASCII => rfl
  | SBYTE => rfl
  | UNDEFINED => rfl
  | SHORT =>
    obtain ⟨b0, b1, hc⟩ := list_two (by simpa [typeBytes] using hlenc)
    subst hc
    have h0 : b0 < 256 := hb _ (by simp)
    have h1 : b1 < 256 := hb _ (by simp)
    exact swapScalar_two hl b0 b1 h0 h1
  | SSHORT =>
    obtain ⟨b0, b1, hc⟩ := list_two (by simpa [typeBytes] using hlenc)
    subst hc
    have h0 : b0 < 256 := hb _ (by simp)
    have h1 : b1 < 256 := hb _ (by simp)
    exact swapScalar_two hl b0 b1 h0 h1
  | LONG =>
    obtain ⟨b0, b1, b2, b3, hc⟩ := list_four (by simpa [typeBytes] using hlenc)
    subst hc
    have h0 : b0 < 256 := hb _ (by simp)
    have h1 : b1 < 256 := hb _ (by simp)
    have h2 : b2 < 256 := hb _ (by simp)
    have h3 : b3 < 256 := hb _ (by simp)
    exact swapScalar_four hl b0 b1 b2 b3 h0 h1 h2 h3
  | SLONG =>
    obtain ⟨b0, b1, b2, b3, hc⟩ := list_four (by simpa [typeBytes] using hlenc)
    subst hc
    have h0 : b0 < 256 := hb _ (by simp)
    have h1 : b1 < 256 := hb _ (by simp)
    have h2 : b2 < 256 := hb _ (by simp)
    have h3 : b3 < 256 := hb _ (by simp)
    exact swapScalar_four hl b0 b1 b2 b3 h0 h1 h2 h3
  | FLOAT =>
    obtain ⟨b0, b1, b2, b3, hc⟩ := list_four (by simpa [typeBytes] using hlenc)
    subst hc
    have h0 : b0 < 256 := hb _ (by simp)
    have h1 : b1 < 256 := hb _ (by simp)
    have h2 : b2 < 256 := hb _ (by simp)
    have h3 : b3 < 256 := hb _ (by simp)
    exact swapScalar_four hl b0 b1 b2 b3 h0 h1 h2 h3
  | DOUBLE =>
    obtain ⟨b0, b1, b2, b3, b4, b5, b6, b7, hc⟩ :=
      list_eight (by simpa [typeBytes] using hlenc)
    subst hc
    have h0 : b0 < 256 := hb _ (by simp)
    have h1 : b1 < 256 := hb _ (by simp)
    have h2 : b2 < 256 := hb _ (by simp)
    have h3 : b3 < 256 := hb _ (by simp)
    have h4 : b4 < 256 := hb _ (by simp)
    have h5 : b5 < 256 := hb _ (by simp)
    have h6 : b6 < 256 := hb _ (by simp)
    have h7 : b7 < 256 := hb _ (by simp)
    exact swapScalar_eight hl b0 b1 b2 b3 b4 b5 b6 b7 h0 h1 h2 h3 h4 h5 h6 h7
  | RATIONAL =>
    obtain ⟨b0, b1, b2, b3, b4, b5, b6, b7, hc⟩ :=
      list_eight (by simpa [typeBytes] using hlenc)
    subst hc
    have h0 : b0 < 256 := hb _ (by simp)
    have h1 : b1 < 256 := hb _ (by simp)
    have h2 : b2 < 256 := hb _ (by simp)
    have h3 : b3 < 256 := hb _ (by simp)
    have h4 : b4 < 256 := hb _ (by simp)
    have h5 : b5 < 256 := hb _ (by simp)
    have h6 : b6 < 256 := hb _ (by simp)
    have h7 : b7 < 256 := hb _ (by simp)
    show encMem hl 4 (swap32 (decMem hl [b0, b1, b2, b3])) ++
        encMem hl 4 (swap32 (decMem hl [b4, b5, b6, b7])) = _
    rw [swapScalar_four hl b0 b1 b2 b3 h0 h1 h2 h3,
      swapScalar_four hl b4 b5 b6 b7 h4 h5 h6 h7]
    rfl
  | SRATIONAL =>
    obtain ⟨b0, b1, b2, b3, b4, b5, b6, b7, hc⟩ :=
      list_eight (by simpa [typeBytes] using hlenc)
    subst hc
    have h0 : b0 < 256 := hb _ (by simp)
    have h1 : b1 < 256 := hb _ (by simp)
    have h2 : b2 < 256 := hb _ (by simp)
    have h3 : b3 < 256 := hb _ (by simp)
    have h4 : b4 < 256 := hb _ (by simp)
    have h5 : b5 < 256 := hb _ (by simp)
    have h6 : b6 < 256 := hb _ (by simp)
    have h7 : b7 < 256 := hb _ (by simp)
    show encMem hl 4 (swap32 (decMem hl [b0, b1, b2, b3])) ++
        encMem hl 4 (swap32 (decMem hl [b4, b5, b6, b7])) = _
    rw [swapScalar_four hl b0 b1 b2 b3 h0 h1 h2 h3,
      swapScalar_four hl b4 b5 b6 b7 h4 h5 h6 h7]
    rfl

/-- `swapArray` acts element-wise as the claimed byte reversal on a
well-formed value buffer. -/
theorem swapArrayBytes_spec (hl : Bool) (ty : Ty) :
    ∀ (count : Nat) (bytes : List Nat),
      bytes.length = count * typeBytes ty → (∀ b ∈ bytes, b < 256) →
      swapArrayBytes hl ty count bytes =
        List.flatten ((chunksOf (typeBytes ty) count bytes).map (specElemSwap ty))
  | 0, bytes, hlenb, _ => by
    have : bytes = [] := List.eq_nil_of_length_eq_zero (by omega)
    subst this
    rfl
  | c + 1, bytes, hlenb, hb => by
    have hw : typeBytes ty ≤ bytes.length := by
      rw [hlenb]
      calc typeBytes ty = 1 * typeBytes ty := (one_mul _).symm
      _ ≤ (c + 1) * typeBytes ty := Nat.mul_le_mul_right _ (by omega)
    have htake : (bytes.take (typeBytes ty)).length = typeBytes ty := by
      rw [List.length_take]
      omega
    have hdropl : (bytes.drop (typeBytes ty)).length = c * typeBytes ty := by
      rw [List.length_drop, hlenb]
      ring_nf
      omega
    have ih := swapArrayBytes_spec hl ty c (bytes.drop (typeBytes ty)) hdropl
      (fun b hbm => hb _ (List.drop_subset _ _ hbm))
    show swapElem hl ty (bytes.take (typeBytes ty)) ++
        swapArrayBytes hl ty c (bytes.drop (typeBytes ty)) = _
    rw [swapElem_spec hl ty _ htake (fun b hbm => hb _ (List.take_subset _ _ hbm)),
      ih]
    rfl

/-- C4: when the file byte order differs from the host order, the entry
value buffer is swapped as an array of `count` elements of the declared
type — 1-byte elements unchanged, 2-, 4- and 8-byte elements
byte-reversed, rationals as two independently reversed 4-byte halves —
and the values stored by `Entry::read` are exactly this per-element swap
of the raw file bytes. -/
theorem claim_C4_swap_as_typed_array (hl : Bool) :
    (∀ ty chunk, chunk.length = typeBytes ty → (∀ b ∈ chunk, b < 256) →
      swapElem hl ty chunk = specElemSwap ty chunk)
    ∧ (∀ ty count bytes, bytes.length = count * typeBytes ty →
        (∀ b ∈ bytes, b < 256) →
        swapArrayBytes hl ty count bytes =
          List.flatten ((chunksOf (typeBytes ty) count bytes).map (specElemSwap ty)))
    ∧ (∀ file pos e off, entryRead hl true file pos = .ok (e, off) →
        ∃ raw, e.values = swapArrayBytes hl e.ty e.count raw ∧
          ((off = none ∧
             raw = bytesAt file (pos + 8) (e.count * typeBytes e.ty % 2 ^ 32)) ∨
           (∃ voff, off = some voff ∧
             raw = bytesAt file voff (e.count * typeBytes e.ty % 2 ^ 32)))) := by
  refine ⟨swapElem_spec hl, swapArrayBytes_spec hl, ?_⟩
  intro file pos e off hok
  obtain ⟨tag, tyc, count, ty, _, _, _, _, _, hety, hecount, raw, hvals, hcase⟩ :=
    entryRead_shape hl true file pos hok
  rw [if_pos rfl] at hvals
  refine ⟨raw, by rw [hvals, hety, hecount], ?_⟩
  rcases hcase with ⟨hoff, _, _, hraw⟩ | ⟨voff, hoff, _, _, _, _, hraw⟩
  · exact Or.inl ⟨hoff, by rw [hraw, hety, hecount]⟩
  · exact Or.inr ⟨voff, hoff, by rw [hraw, hety, hecount]⟩

/-- Witness for C4: a 2-element SHORT buffer is swapped pairwise, and a
concrete big-endian entry stores the reversed bytes. -/
theorem claim_C4_swap_as_typed_array_witness :
    swapElem true .SHORT [18, 52] = specElemSwap .SHORT [18, 52] ∧
    swapArrayBytes true .SHORT 2 [1, 2, 3, 4] =
      List.flatten ((chunksOf (typeBytes .SHORT) 2 [1, 2, 3, 4]).map
        (specElemSwap .SHORT)) ∧
    (∃ raw,
      (TEntry.mk 256 .SHORT 1 [52, 18]).values =
        swapArrayBytes true .SHORT 1 raw ∧ raw = [18, 52]) := by
  have h := claim_C4_swap_as_typed_array true
  refine ⟨h.1 .SHORT [18, 52] (by decide) (by decide),
    h.2.1 .SHORT 2 [1, 2, 3, 4] (by decide) (by decide), ?_⟩
  obtain ⟨raw, hvals, hcase⟩ := h.2.2 [1, 0, 0, 3, 0, 0, 0, 1, 18, 52, 0, 0] 0
    ⟨256, .SHORT, 1, [52, 18]⟩ none (by rfl)
  rcases hcase with ⟨_, hraw⟩ | ⟨voff, hoff, _⟩
  · exact ⟨raw, hvals, hraw.trans (by rfl)⟩
  · exact absurd hoff (by simp)

/-! ## Directory ordering -/

/-- The entries of a directory parse one after another, 12 bytes apart,
to the given entry/offset pairs. -/
def entriesParse (hl ms : Bool) (file : List Nat) :
    Nat → List (TEntry × Option Nat) → Prop
  | _, [] => True
  | p, (e, o) :: rest =>
    entryRead hl ms file p = .ok (e, o) ∧ entriesParse hl ms file (p + 12) rest

/-- Tags of a parsed entry sequence. -/
def parsedTags (ps : List (TEntry × Option Nat)) : List Nat :=
  ps.map (fun p => p.1.tag)

theorem insertEntry_mem_self (m : List (Nat × TEntry)) (t : Nat) (e : TEntry) :
    (t, e) ∈ insertEntry m t e := by
  induction m with
  | nil => simp [insertEntry]
  | cons p rest ih =>
    obtain ⟨t0, e0⟩ := p
    unfold insertEntry
    by_cases h1 : t < t0
    · rw [if_pos h1]
      exact List.mem_cons_self _ _
    · rw [if_neg h1]
      by_cases h2 : t = t0
      · rw [if_pos h2]
        exact List.mem_cons_self _ _
      · rw [if_neg h2]
        exact List.mem_cons_of_mem _ ih

theorem insertEntry_mem_other (m : List (Nat × TEntry)) (t : Nat) (e : TEntry)
    (t2 : Nat) (e2 : TEntry) (hmem : (t2, e2) ∈ m) (hne : t2 ≠ t) :
    (t2, e2) ∈ insertEntry m t e := by
  induction m with
  | nil => cases hmem
  | cons p rest ih =>
    obtain ⟨t0, e0⟩ := p
    unfold insertEntry
    by_cases h1 : t < t0
    · rw [if_pos h1]
      exact List.mem_cons_of_mem _ hmem
    · rw [if_neg h1]
      by_cases h2 : t = t0
      · rw [if_pos h2]
        rcases List.mem_cons.mp hmem with heq | htail
        · injection heq with ha hb
          exact absurd (ha.trans h2.symm) hne
        · exact List.mem_cons_of_mem _ htail
      · rw [if_neg h2]
        rcases List.mem_cons.mp hmem with heq | htail
        · rw [heq]
          exact List.mem_cons_self _ _
        · exact List.mem_cons_of_mem _ (ih htail)

theorem foldl_insert_preserves (es : List TEntry) :
    ∀ (acc : List (Nat × TEntry)) (t : Nat) (e : TEntry),
      (t, e) ∈ acc → (∀ e2 ∈ es, e2.tag ≠ t) →
      (t, e) ∈ es.foldl (fun m e2 => insertEntry m e2.tag e2) acc := by
  induction es with
  | nil => intro acc t e hmem _; exact hmem
  | cons a es ih =>
    intro acc t e hmem hne
    exact ih _ t e
      (insertEntry_mem_other acc a.tag a t e hmem (fun h => hne a (by simp) h.symm))
      (fun e2 h2 => hne e2 (by simp [h2]))

theorem foldl_insert_mem (es : List TEntry) :
    ∀ (acc : List (Nat × TEntry)) (e : TEntry), e ∈ es →
      (es.map TEntry.tag).Pairwise (· < ·) →
      (e.tag, e) ∈ es.foldl (fun m e2 => insertEntry m e2.tag e2) acc := by
  induction es with
  | nil => intro _ _ h; cases h
  | cons a es ih =>
    intro acc e hmem hpw
    rw [List.map_cons, List.pairwise_cons] at hpw
    rcases List.mem_cons.mp hmem with heq | htail
    · subst heq
      exact foldl_insert_preserves es _ e.tag e
        (insertEntry_mem_self acc e.tag e)
        (fun e2 h2 => Nat.ne_of_gt (hpw.1 e2.tag (List.mem_map_of_mem _ h2)))
    · exact ih _ e htail hpw.2

/-- Normal form of the entry loop: with every entry parsing successfully,
the loop fails with `unsortedDirectory` exactly when the tag sequence
prefixed with `lastTag` is not strictly increasing, and otherwise returns
the accumulated map. -/
theorem ifdEntries_eq (hl ms : Bool) (file : List Nat) :
    ∀ (ps : List (TEntry × Option Nat)) (p lastTag : Nat)
      (acc : List (Nat × TEntry)),
      entriesParse hl ms file p ps →
      ifdEntries hl ms file ps.length p lastTag acc =
        (if List.Chain' (· < ·) (lastTag :: parsedTags ps) then
          .ok ((ps.map Prod.fst).foldl (fun m e => insertEntry m e.tag e) acc)
        else .error .unsortedDirectory) := by
  intro ps
  induction ps with
  | nil =>
    intro p lastTag acc _
    simp [ifdEntries, parsedTags]
  | cons pe ps ih =>
    intro p lastTag acc hp
    obtain ⟨e, o⟩ := pe
    obtain ⟨hok, hrest⟩ := hp
    show ifdEntries hl ms file (ps.length + 1) p lastTag acc = _
    unfold ifdEntries
    rw [hok]
    simp only []
    by_cases hle : e.tag ≤ lastTag
    · rw [if_pos hle]
      have : ¬ List.Chain' (· < ·) (lastTag :: parsedTags ((e, o) :: ps)) := by
        intro hch
        have hlt : lastTag < e.tag := by
          simpa using (List.chain'_cons.mp hch).1
        omega
      rw [if_neg this]
    · rw [if_neg hle]
      rw [ih (p + 12) e.tag (insertEntry acc e.tag e) hrest]
      simp only [parsedTags, List.map_cons]
      by_cases hch : List.Chain' (· < ·) (e.tag :: ps.map (fun q => q.1.tag))
      · rw [if_pos hch, if_pos (List.chain'_cons.mpr ⟨by omega, hch⟩)]
        rfl
      · rw [if_neg hch, if_neg (fun hc => hch (List.chain'_cons.mp hc).2)]

/-- Normal form of `IFD::read` under a successful parse of all entries. -/
theorem ifdRead_eq (hl ms : Bool) (file : List Nat) (pos : Nat)
    (ps : List (TEntry × Option Nat))
    (hn : readU16 hl ms file pos = some ps.length)
    (hp : entriesParse hl ms file (pos + 2) ps) :
    ifdRead hl ms file pos =
      (if List.Chain' (· < ·) (0 :: parsedTags ps) then
        .ok ((ps.map Prod.fst).foldl (fun m e => insertEntry m e.tag e) [],
          pos + 2 + 12 * ps.length)
      else .error .unsortedDirectory) := by
  unfold ifdRead
  rw [hn]
  simp only []
  rw [ifdEntries_eq hl ms file ps (pos + 2) 0 [] hp]
  by_cases hch : List.Chain' (· < ·) (0 :: parsedTags ps)
  · rw [if_pos hch, if_pos hch]
  · rw [if_neg hch, if_neg hch]

/-- C6 (amended): with every entry parsing successfully, `IFD::read`
raises `UnsortedDirectory` if and only if the on-disk tag sequence,
prefixed by the initial `lastTag` value `Tag::Null = 0`, is not strictly
increasing — i.e. the tags must be strictly increasing and the first tag
must be greater than 0; when that holds, every parsed entry is retained
in the resulting Directory keyed by its tag. -/
theorem claim_C6_unsorted_directory (hl ms : Bool) (file : List Nat)
    (pos : Nat) (ps : List (TEntry × Option Nat))
    (hn : readU16 hl ms file pos = some ps.length)
    (hp : entriesParse hl ms file (pos + 2) ps) :
    (ifdRead hl ms file pos = .error .unsortedDirectory ↔
      ¬ List.Chain' (· < ·) (0 :: parsedTags ps))
    ∧ (List.Chain' (· < ·) (0 :: parsedTags ps) →
        ∃ dir, ifdRead hl ms file pos = .ok (dir, pos + 2 + 12 * ps.length) ∧
          ∀ p ∈ ps, (p.1.tag, p.1) ∈ dir) := by
  have heq := ifdRead_eq hl ms file pos ps hn hp
  constructor
  · constructor
    · intro herr hch
      rw [if_pos hch] at heq
      rw [heq] at herr
      exact absurd herr (by simp)
    · intro hch
      rw [if_neg hch] at heq
      exact heq
  · intro hch
    rw [if_pos hch] at heq
    refine ⟨_, heq, ?_⟩
    intro q hq
    have hpw0 : (0 :: parsedTags ps).Pairwise (· < ·) :=
      (List.chain'_iff_pairwise).mp hch
    have hpw : ((ps.map Prod.fst).map TEntry.tag).Pairwise (· < ·) := by
      have hmap : (ps.map Prod.fst).map TEntry.tag = parsedTags ps := by
        simp [parsedTags]
      rw [hmap]
      exact hpw0.of_cons
    exact foldl_insert_mem (ps.map Prod.fst) [] q.1
      (List.mem_map_of_mem _ hq) hpw

/-- Witness for C6 at a concrete two-entry directory with ascending tags. -/
theorem claim_C6_unsorted_directory_witness :
    ∃ dir, ifdRead true false
        [2, 0, 0, 1, 4, 0, 1, 0, 0, 0, 8, 0, 0, 0,
          1, 1, 4, 0, 1, 0, 0, 0, 9, 0, 0, 0] 0 =
      .ok (dir, 0 + 2 + 12 * 2) ∧
      (256, TEntry.mk 256 .LONG 1 [8, 0, 0, 0]) ∈ dir ∧
      (257, TEntry.mk 257 .LONG 1 [9, 0, 0, 0]) ∈ dir := by
  obtain ⟨dir, hok, hmem⟩ := (claim_C6_unsorted_directory true false
      [2, 0, 0, 1, 4, 0, 1, 0, 0, 0, 8, 0, 0, 0,
        1, 1, 4, 0, 1, 0, 0, 0, 9, 0, 0, 0] 0
      [(⟨256, .LONG, 1, [8, 0, 0, 0]⟩, none),
        (⟨257, .LONG, 1, [9, 0, 0, 0]⟩, none)]
      (by rfl) ⟨by rfl, by rfl, trivial⟩).2
      (by norm_num [parsedTags, List.chain'_cons])
  exact ⟨dir, hok,
    hmem (⟨256, .LONG, 1, [8, 0, 0, 0]⟩, none) (by simp),
    hmem (⟨257, .LONG, 1, [9, 0, 0, 0]⟩, none) (by simp)⟩

/-- Counterexample to C6 as stated: a single-entry directory whose only
tag is the reserved `Null` tag 0 has a strictly increasing tag sequence,
yet `IFD::read` raises `UnsortedDirectory` (its running `lastTag` starts
at 0 and the comparison is `tag ≤ lastTag`). -/
theorem claim_C6_counterexample :
    ifdRead true false [1, 0, 0, 0, 4, 0, 1, 0, 0, 0, 8, 0, 0, 0] 0 =
      .error .unsortedDirectory ∧
    List.Chain' (· < ·) [(0 : Nat)] := by
  exact ⟨by rfl, by simp⟩

/-! ## Chunk reading lemmas -/

theorem readChunks_ok (file : List Nat) :
    ∀ pairs : List (Nat × Nat),
      (∀ pr ∈ pairs, 8 ≤ pr.1 ∧ 0 < pr.2 ∧ pr.1 + pr.2 ≤ file.length) →
      readChunks file pairs = .ok (pairs.map fun pr => bytesAt file pr.1 pr.2)
  | [], _ => rfl
  | (off, bc) :: rest, hv => by
    have hh := hv (off, bc) (by simp)
    simp only at hh
    unfold readChunks
    rw [if_neg (by omega), if_pos (by omega)]
    rw [readChunks_ok file rest (fun pr hpr => hv pr (List.mem_cons_of_mem _ hpr))]
    rfl

theorem readChunks_err (file : List Nat) :
    ∀ (pairs : List (Nat × Nat)) (pr : Nat × Nat), pr ∈ pairs →
      pr.1 < 8 ∨ pr.2 = 0 → ∃ e, readChunks file pairs = .error e
  | [], pr, hmem, _ => absurd hmem (by simp)
  | (off, bc) :: rest, pr, hmem, hbad => by
    unfold readChunks
    by_cases hinv : off < 8 ∨ bc = 0
    · exact ⟨.invalidChunk, by rw [if_pos hinv]⟩
    · rw [if_neg hinv]
      rcases List.mem_cons.mp hmem with heq | htail
      · subst heq
        simp only at hbad
        omega
      · by_cases hlen : off + bc ≤ file.length
        · rw [if_pos hlen]
          obtain ⟨e, he⟩ := readChunks_err file rest pr htail hbad
          exact ⟨e, by rw [he]⟩
        · exact ⟨.ioFailure, by rw [if_neg hlen]⟩

/-- C7: image-data organization is selected by tag presence
(`StripOffsets`, else `TileByteCounts`, else `UnsupportedLayout`); in a
resolved case, offset and byte-count vectors of unequal length are an
error, every `(offset, byteCount)` pair must satisfy `offset ≥ 8` and
`byteCount > 0` (otherwise an error), and on success the chunk list has
one chunk per pair where chunk `i` holds exactly `byteCounts[i]` bytes
read from `offsets[i]`. -/
theorem claim_C7_strip_tile_locator (hl : Bool) (file : List Nat)
    (dir : List (Nat × TEntry)) :
    (containsTag dir StripOffsetsTag = true →
      loadOne hl file dir = readImageStrips hl file dir)
    ∧ (containsTag dir StripOffsetsTag = false →
        containsTag dir TileByteCountsTag = true →
        loadOne hl file dir = readImageTiles hl file dir)
    ∧ (containsTag dir StripOffsetsTag = false →
        containsTag dir TileByteCountsTag = false →
        loadOne hl file dir = .error .unsupportedLayout)
    ∧ (∀ eo ec offs cnts,
        getEntry dir StripOffsetsTag = some eo →
        copyVectorU32 hl eo.ty eo.count eo.values = .ok offs →
        getEntry dir StripByteCountsTag = some ec →
        copyVectorU32 hl ec.ty ec.count ec.values = .ok cnts →
        (offs.length ≠ cnts.length →
          readImageStrips hl file dir = .error .chunkVectorMismatch)
        ∧ (offs.length = cnts.length →
            ((∀ pr ∈ offs.zip cnts, 8 ≤ pr.1 ∧ 0 < pr.2 ∧
                pr.1 + pr.2 ≤ file.length) →
              readImageStrips hl file dir =
                .ok ((offs.zip cnts).map fun pr => bytesAt file pr.1 pr.2) ∧
              ∀ pr ∈ offs.zip cnts, (bytesAt file pr.1 pr.2).length = pr.2)
            ∧ (∀ pr ∈ offs.zip cnts, pr.1 < 8 ∨ pr.2 = 0 →
                ∃ err, readImageStrips hl file dir = .error err)))
    ∧ (∀ eo ec offs cnts,
        getEntry dir TileOffsetsTag = some eo →
        copyVectorU32 hl eo.ty eo.count eo.values = .ok offs →
        getEntry dir TileByteCountsTag = some ec →
        copyVectorU32 hl ec.ty ec.count ec.values = .ok cnts →
        (offs.length ≠ cnts.length →
          readImageTiles hl file dir = .error .chunkVectorMismatch)
        ∧ (offs.length = cnts.length →
            ((∀ pr ∈ offs.zip cnts, 8 ≤ pr.1 ∧ 0 < pr.2 ∧
                pr.1 + pr.2 ≤ file.length) →
              readImageTiles hl file dir =
                .ok ((offs.zip cnts).map fun pr => bytesAt file pr.1 pr.2) ∧
              ∀ pr ∈ offs.zip cnts, (bytesAt file pr.1 pr.2).length = pr.2)
            ∧ (∀ pr ∈ offs.zip cnts, pr.1 < 8 ∨ pr.2 = 0 →
                ∃ err, readImageTiles hl file dir = .error err))) := by
  refine ⟨?_, ?_, ?_, ?_, ?_⟩
  · intro hs
    unfold loadOne
    rw [if_pos hs]
  · intro hs ht
    unfold loadOne
    rw [if_neg (by simp [hs]), if_pos ht]
  · intro hs ht
    unfold loadOne
    rw [if_neg (by simp [hs]), if_neg (by simp [ht])]
  · intro eo ec offs cnts heo hoffs hec hcnts
    have hstrips : readImageStrips hl file dir =
        (if offs.length ≠ cnts.length then .error .chunkVectorMismatch
         else readChunks file (offs.zip cnts)) := by
      unfold readImageStrips
      rw [heo]
      simp only []
      rw [hoffs]
      simp only []
      rw [hec]
      simp only []
      rw [hcnts]
    constructor
    · intro hne
      rw [hstrips, if_pos hne]
    · intro hlen
      rw [hstrips, if_neg (by omega)]
      constructor
      · intro hv
        exact ⟨readChunks_ok file _ hv,
          fun pr hpr => bytesAt_length (hv pr hpr).2.2⟩
      · intro pr hpr hbad
        exact readChunks_err file _ pr hpr hbad
  · intro eo ec offs cnts heo hoffs hec hcnts
    have htiles : readImageTiles hl file dir =
        (if offs.length ≠ cnts.length then .error .chunkVectorMismatch
         else readChunks file (offs.zip cnts)) := by
      unfold readImageTiles
      rw [heo]
      simp only []
      rw [hoffs]
      simp only []
      rw [hec]
      simp only []
      rw [hcnts]
    constructor
    · intro hne
      rw [htiles, if_pos hne]
    · intro hlen
      rw [htiles, if_neg (by omega)]
      constructor
      · intro hv
        exact ⟨readChunks_ok file _ hv,
          fun pr hpr => bytesAt_length (hv pr hpr).2.2⟩
      · intro pr hpr hbad
        exact readChunks_err file _ pr hpr hbad

/-- Witness for C7: a concrete single-strip directory resolves to one
2-byte chunk read from offset 8. -/
theorem claim_C7_strip_tile_locator_witness :
    loadOne true [0, 0, 0, 0, 0, 0, 0, 0, 55, 66]
      [(273, ⟨273, .LONG, 1, [8, 0, 0, 0]⟩),
        (279, ⟨279, .LONG, 1, [2, 0, 0, 0]⟩)] =
      readImageStrips true [0, 0, 0, 0, 0, 0, 0, 0, 55, 66]
        [(273, ⟨273, .LONG, 1, [8, 0, 0, 0]⟩),
          (279, ⟨279, .LONG, 1, [2, 0, 0, 0]⟩)] ∧
    readImageStrips true [0, 0, 0, 0, 0, 0, 0, 0, 55, 66]
      [(273, ⟨273, .LONG, 1, [8, 0, 0, 0]⟩),
        (279, ⟨279, .LONG, 1, [2, 0, 0, 0]⟩)] =
      .ok [bytesAt [0, 0, 0, 0, 0, 0, 0, 0, 55, 66] 8 2] := by
  have h := claim_C7_strip_tile_locator true [0, 0, 0, 0, 0, 0, 0, 0, 55, 66]
    [(273, ⟨273, .LONG, 1, [8, 0, 0, 0]⟩),
      (279, ⟨279, .LONG, 1, [2, 0, 0, 0]⟩)]
  refine ⟨h.1 (by rfl), ?_⟩
  have h4 := h.2.2.2.1 ⟨273, .LONG, 1, [8, 0, 0, 0]⟩ ⟨279, .LONG, 1, [2, 0, 0, 0]⟩
    [8] [2] (by rfl) (by rfl) (by rfl) (by rfl)
  exact ((h4.2 (by rfl)).1 (by decide)).1

/-- C10: a `LoadParams.ifdIndex` greater than or equal to the number of
parsed directories makes `load` raise an error before any directory is
processed: the callback is never invoked and no image data is read. -/
theorem claim_C10_ifd_index_bounds (hl : Bool) (file : List Nat)
    (fuel k : Nat) (hd : THeader) (dirs : List (List (Nat × TEntry)))
    (hread : tiffRead hl file fuel = .ok (hd, dirs))
    (hk : dirs.length ≤ k) :
    loadModel hl file fuel (some k) = ([], some .ifdIndexOutOfBounds) := by
  unfold loadModel
  rw [hread]
  simp only []
  rw [if_pos (by omega)]

/-- Witness for C10 at a concrete one-directory TIFF stream with
requested index 1. -/
theorem claim_C10_ifd_index_bounds_witness :
    loadModel true
      [73, 73, 42, 0, 8, 0, 0, 0, 1, 0, 17, 1, 4, 0, 1, 0, 0, 0, 8, 0, 0, 0,
        0, 0, 0, 0] 2 (some 1) = ([], some .ifdIndexOutOfBounds) := by
  exact claim_C10_ifd_index_bounds true
    [73, 73, 42, 0, 8, 0, 0, 0, 1, 0, 17, 1, 4, 0, 1, 0, 0, 0, 8, 0, 0, 0,
      0, 0, 0, 0] 2 1 ⟨true, 8⟩
    [[(273, ⟨273, .LONG, 1, [8, 0, 0, 0]⟩)]] (by rfl) (by decide)

/-- C8 (dispatcher modelled from the spec, `TiffExporterAny` not being in
`src/`): a `FormatNotSupported` failure from one variant is swallowed and
the next variant tried, any other error propagates immediately, and if
every variant fails with `FormatNotSupported` (or produces an empty
buffer) the dispatcher raises a terminal `FormatNotSupported`; in the
embedded load path itself no error is caught or transformed — a failing
locator aborts `loadOne` and the directory loop with the same error. -/
theorem claim_C8_dispatcher_fallback :
    (∀ rest : List VariantOutcome,
      tryVariants (.formatNotSupported :: rest) = tryVariants rest)
    ∧ (∀ (e : TErr) (rest : List VariantOutcome),
        tryVariants (.fatal e :: rest) = .fatal e)
    ∧ (∀ buf rest, buf ≠ [] →
        tryVariants (.produced buf :: rest) = .produced buf)
    ∧ (∀ vs : List VariantOutcome,
        (∀ v ∈ vs, v = .formatNotSupported ∨ v = .produced []) →
        tryVariants vs = .formatNotSupported)
    ∧ (∀ (hl : Bool) (file : List Nat) (dir : List (Nat × TEntry)) (e : TErr),
        containsTag dir StripOffsetsTag = true →
        readImageStrips hl file dir = .error e →
        loadOne hl file dir = .error e)
    ∧ (∀ (hl : Bool) (file : List Nat) (ifdIndex : Option Nat) (i : Nat)
        (d : List (Nat × TEntry)) (rest : List (List (Nat × TEntry)))
        (e : TErr),
        (match ifdIndex with | none => true | some k => k == i) = true →
        loadOne hl file d = .error e →
        loadLoop hl file ifdIndex i (d :: rest) = ([], some e)) := by
  refine ⟨fun rest => rfl, fun e rest => rfl, ?_, ?_, ?_, ?_⟩
  · intro buf rest hne
    unfold tryVariants
    rw [if_neg (by simpa using hne)]
  · intro vs hvs
    induction vs with
    | nil => rfl
    | cons v rest ih =>
      rcases hvs v (by simp) with hfns | hempty
      · subst hfns
        show tryVariants (.formatNotSupported :: rest) = _
        exact ih (fun w hw => hvs w (List.mem_cons_of_mem _ hw))
      · subst hempty
        show tryVariants (.produced [] :: rest) = _
        unfold tryVariants
        rw [if_pos (by simp)]
        exact ih (fun w hw => hvs w (List.mem_cons_of_mem _ hw))
  · intro hl file dir e hs herr
    unfold loadOne
    rw [if_pos hs, herr]
  · intro hl file ifdIndex i d rest e hsel herr
    unfold loadLoop
    rw [hsel]
    simp only [if_true]
    rw [herr]

/-- Witness for C8 at concrete variant lists and a concrete failing
directory. -/
theorem claim_C8_dispatcher_fallback_witness :
    tryVariants [.produced [7], .produced [9]] = .produced [7] ∧
    tryVariants [.formatNotSupported, .produced []] = .formatNotSupported ∧
    loadLoop true [] none 0 [[(273, ⟨273, .LONG, 1, [8, 0, 0, 0]⟩)]] =
      ([], some .missingTag) := by
  have h := claim_C8_dispatcher_fallback
  refine ⟨h.2.2.1 [7] [.produced [9]] (by decide), ?_, ?_⟩
  · exact h.2.2.2.1 [.formatNotSupported, .produced []] (by decide)
  · exact h.2.2.2.2.2 true [] none 0 [(273, ⟨273, .LONG, 1, [8, 0, 0, 0]⟩)]
      [] .missingTag (by rfl) (by rfl)

/-! ## Pixel engine: invariants and the fast/slow equivalence -/

theorem swap32_lt (v : Nat) : swap32 v < 2 ^ 32 := by
  unfold swap32
  have m1 : ((v <<< 24) % 2 ^ 32) &&& 0xFF000000 < 2 ^ 32 :=
    lt_of_le_of_lt Nat.and_le_right (by norm_num)
  have m2 : ((v <<< 8) % 2 ^ 32) &&& 0x00FF0000 < 2 ^ 32 :=
    lt_of_le_of_lt Nat.and_le_right (by norm_num)
  have m3 : (v >>> 8) &&& 0x0000FF00 < 2 ^ 32 :=
    lt_of_le_of_lt Nat.and_le_right (by norm_num)
  have m4 : (v >>> 24) &&& 0x000000FF < 2 ^ 32 :=
    lt_of_le_of_lt Nat.and_le_right (by norm_num)
  exact Nat.or_lt_two_pow (Nat.or_lt_two_pow (Nat.or_lt_two_pow m1 m2) m3) m4

theorem swap64_lt (v : Nat) : swap64 v < 2 ^ 64 := by
  unfold swap64
  refine Nat.or_lt_two_pow (Nat.or_lt_two_pow (Nat.or_lt_two_pow
    (Nat.or_lt_two_pow (Nat.or_lt_two_pow (Nat.or_lt_two_pow
      (Nat.or_lt_two_pow ?_ ?_) ?_) ?_) ?_) ?_) ?_) ?_ <;>
    exact lt_of_le_of_lt Nat.and_le_right (by norm_num)

/-- The `swap<T>` dispatch keeps a value inside its operand width. -/
theorem swapVal_lt {w v : Nat} (hv : v < 2 ^ (8 * w)) :
    swapVal w v < 2 ^ (8 * w) := by
  match w with
  | 2 =>
    show swap16 v < 2 ^ 16
    exact Nat.mod_lt _ (by norm_num)
  | 4 => exact swap32_lt v
  | 8 => exact swap64_lt v
  | 0 | 1 | 3 | 5 | 6 | 7 => exact hv
  | n + 9 => exact hv

/-- Accumulator invariant of the slow path: `countAvail` never exceeds
the word width, `bitsAvail` fits the source word, and the bits below the
valid region (the low `width - countAvail` bits) are zero. -/
def accInv {α : Type} (sw : Nat) (s : AccState α) : Prop :=
  s.countAvail ≤ 8 * sw ∧ s.bitsAvail < 2 ^ (8 * sw) ∧
  s.bitsAvail % 2 ^ (8 * sw - s.countAvail) = 0

/-- With an empty accumulator the invariant forces `bitsAvail = 0`. -/
theorem accInv_zero {α : Type} {sw : Nat} {s : AccState α}
    (hinv : accInv sw s) (hca : s.countAvail = 0) : s.bitsAvail = 0 := by
  obtain ⟨_, hlt, hmod⟩ := hinv
  rw [hca, Nat.sub_zero, Nat.mod_eq_of_lt hlt] at hmod
  exact hmod

/-- Valid word sources: a source satisfying `Q` yields words inside the
source width and a successor source satisfying `Q`. -/
def srcOk {α : Type} (next : α → Option (Nat × α)) (sw : Nat)
    (Q : α → Prop) : Prop :=
  ∀ a w2 a2, Q a → next a = some (w2, a2) → w2 < 2 ^ (8 * sw) ∧ Q a2

theorem shift_mod_zero {W ca n ba : Nat} (hca : ca ≤ W) (hn : n ≤ ca)
    (hdvd : ba % 2 ^ (W - ca) = 0) :
    (ba <<< n) % 2 ^ W % 2 ^ (W - (ca - n)) = 0 := by
  have h1 : 2 ^ (W - ca) ∣ ba := Nat.dvd_of_mod_eq_zero hdvd
  have h2 : 2 ^ (W - ca + n) ∣ ba <<< n := by
    rw [Nat.shiftLeft_eq, pow_add]
    exact mul_dvd_mul h1 dvd_rfl
  have h3 : 2 ^ (W - ca + n) ∣ 2 ^ W := pow_dvd_pow 2 (by omega)
  have h4 : 2 ^ (W - ca + n) ∣ (ba <<< n) % 2 ^ W :=
    (Nat.dvd_mod_iff h3).mpr h2
  have h5 : W - (ca - n) = W - ca + n := by omega
  rw [h5]
  obtain ⟨k, hk⟩ := h4
  rw [hk, Nat.mul_mod_right]

/-- The slow-path loop preserves the accumulator invariant and the word
source predicate. -/
theorem bitsLoop_inv {α : Type} (next : α → Option (Nat × α)) (sw dw : Nat)
    (eqHost : Bool) (Q : α → Prop) (hQ : srcOk next sw Q) :
    ∀ (fuel bps count value : Nat) (s : AccState α) (v : Nat)
      (s2 : AccState α), bps - count ≤ fuel → accInv sw s → Q s.src →
      bitsLoop next sw dw bps eqHost count value s = some (v, s2) →
      accInv sw s2 ∧ Q s2.src := by
  intro fuel
  induction fuel with
  | zero =>
    intro bps count value s v s2 hfuel hinv hq hrun
    unfold bitsLoop at hrun
    rw [dif_neg (by omega)] at hrun
    simp only [Option.some.injEq, Prod.mk.injEq] at hrun
    rw [← hrun.2]
    exact ⟨hinv, hq⟩
  | succ fuel ih =>
    intro bps count value s v s2 hfuel hinv hq hrun
    by_cases hc : count < bps
    · unfold bitsLoop at hrun
      rw [dif_pos hc] at hrun
      simp only [] at hrun
      by_cases hca : s.countAvail = 0
      · rw [if_pos hca] at hrun
        cases hn : next s.src with
        | none =>
          rw [hn] at hrun
          exact absurd hrun (by simp)
        | some wa =>
          obtain ⟨w2, a2⟩ := wa
          rw [hn] at hrun
          simp only [] at hrun
          obtain ⟨hw2, ha2⟩ := hQ s.src w2 a2 hq hn
          have hw3lt : (if eqHost then w2 else swapVal sw w2) < 2 ^ (8 * sw) := by
            rcases eqHost with _ | _
            · simpa using swapVal_lt hw2
            · simpa using hw2
          by_cases hn0 : 0 < min (bps - count) (8 * sw)
          · rw [dif_pos hn0] at hrun
            refine ih bps (count + min (bps - count) (8 * sw)) _ _ v s2
              (by omega) ⟨?_, ?_, ?_⟩ ha2 hrun
            · show 8 * sw - min (bps - count) (8 * sw) ≤ 8 * sw
              omega
            · show (if eqHost = true then w2 else swapVal sw w2) <<<
                  min (bps - count) (8 * sw) % 2 ^ (8 * sw) < 2 ^ (8 * sw)
              exact Nat.mod_lt _ (Nat.pos_pow_of_pos _ (by norm_num))
            · show (if eqHost = true then w2 else swapVal sw w2) <<<
                  min (bps - count) (8 * sw) % 2 ^ (8 * sw) %
                  2 ^ (8 * sw - (8 * sw - min (bps - count) (8 * sw))) = 0
              exact shift_mod_zero (le_refl (8 * sw)) (min_le_right _ _)
                (by rw [Nat.sub_self, pow_zero]; exact Nat.mod_one _)
          · rw [dif_neg hn0] at hrun
            exact absurd hrun (by simp)
      · rw [if_neg hca] at hrun
        simp only [] at hrun
        by_cases hn0 : 0 < min (bps - count) s.countAvail
        · rw [dif_pos hn0] at hrun
          obtain ⟨h1, h2, h3⟩ := hinv
          refine ih bps (count + min (bps - count) s.countAvail) _ _ v s2
            (by omega) ⟨?_, ?_, ?_⟩ ?_ hrun
          · show s.countAvail - min (bps - count) s.countAvail ≤ 8 * sw
            omega
          · show s.bitsAvail <<< min (bps - count) s.countAvail % 2 ^ (8 * sw)
                < 2 ^ (8 * sw)
            exact Nat.mod_lt _ (Nat.pos_pow_of_pos _ (by norm_num))
          · show s.bitsAvail <<< min (bps - count) s.countAvail % 2 ^ (8 * sw) %
                2 ^ (8 * sw - (s.countAvail - min (bps - count) s.countAvail)) = 0
            exact shift_mod_zero h1 (min_le_right _ _) h3
          · exact hq
        · rw [dif_neg hn0] at hrun
          exact absurd hrun (by simp)
    · unfold bitsLoop at hrun
      rw [dif_neg hc] at hrun
      simp only [Option.some.injEq, Prod.mk.injEq] at hrun
      rw [← hrun.2]
      exact ⟨hinv, hq⟩

/-- Per-sample agreement of the slow path at full word width with the
fast path: from an empty accumulator, `process_bits` with
`bitsPerSample = 8 * sizeof(SrcType)` emits the same value and state as
`process_word`, provided the byte order equals host or the destination
width equals the source width. -/
theorem processBits_eq_processWord {α : Type} (next : α → Option (Nat × α))
    (sw dw : Nat) (eqHost : Bool) (hsw : 0 < sw)
    (hcond : eqHost = true ∨ dw = sw) (s : AccState α)
    (hca : s.countAvail = 0) (hba : s.bitsAvail = 0)
    (hws : ∀ w a2, next s.src = some (w, a2) → w < 2 ^ (8 * sw)) :
    processBits next sw dw (8 * sw) eqHost s =
      processWord next dw eqHost s := by
  unfold processBits
  unfold bitsLoop
  rw [dif_pos (by omega : (0:Nat) < 8 * sw)]
  simp only []
  rw [if_pos hca]
  unfold processWord
  cases hn : next s.src with
  | none => rfl
  | some wa =>
    obtain ⟨w, a⟩ := wa
    simp only [Nat.sub_zero, Nat.min_self]
    rw [dif_pos (by omega : (0:Nat) < 8 * sw)]
    unfold bitsLoop
    rw [dif_neg (by omega : ¬ (0 + 8 * sw < 8 * sw))]
    have hw : w < 2 ^ (8 * sw) := hws w a hn
    have hz : (if eqHost = true then w else swapVal sw w) <<< (8 * sw) %
        2 ^ (8 * sw) = 0 := by
      rw [Nat.shiftLeft_eq, Nat.mul_mod_left]
    simp only [Nat.zero_shiftLeft, Nat.zero_mod, Nat.zero_or, Nat.sub_self,
      Nat.shiftRight_zero, hca, hba, hz]
    rcases hcond with he | hdw
    · subst he
      simp only [if_true]
    · subst hdw
      cases eqHost with
      | true => simp only [if_true]
      | false =>
        simp only [Bool.false_eq_true, if_false]
        rw [Nat.mod_eq_of_lt hw, Nat.mod_eq_of_lt (swapVal_lt hw)]

/-- Empty-accumulator states over a well-formed word source. -/
def emptyAcc {α : Type} (R : α → Prop) (s : AccState α) : Prop :=
  s.countAvail = 0 ∧ s.bitsAvail = 0 ∧ R s.src

/-- The row flush keeps an empty accumulator empty. -/
theorem flushRow_empty {α : Type} (R : α → Prop) (s : AccState α)
    (hs : emptyAcc R s) : emptyAcc R (flushRow s) := by
  obtain ⟨h1, h2, h3⟩ := hs
  unfold flushRow
  rw [if_neg (by omega)]
  exact ⟨h1, h2, h3⟩

/-- `process_word` leaves the accumulator untouched and advances the
source. -/
theorem processWord_empty {α : Type} (next : α → Option (Nat × α))
    (sw dw : Nat) (eqHost : Bool) (R : α → Prop) (hR : srcOk next sw R)
    (s : AccState α) (v : Nat) (s1 : AccState α) (hs : emptyAcc R s)
    (h : processWord next dw eqHost s = some (v, s1)) : emptyAcc R s1 := by
  obtain ⟨h1, h2, h3⟩ := hs
  unfold processWord at h
  cases hn : next s.src with
  | none => rw [hn] at h; exact absurd h (by simp)
  | some wa =>
    obtain ⟨w, a⟩ := wa
    rw [hn] at h
    simp only [Option.some.injEq, Prod.mk.injEq] at h
    obtain ⟨hv, hs1⟩ := h
    rw [← hs1]
    exact ⟨h1, h2, (hR s.src w a h3 hn).2⟩

/-- On an empty accumulator at full word width, the slow path coincides
with the fast path under the byte-order side condition. -/
theorem processBits_fast {α : Type} (next : α → Option (Nat × α))
    (sw dw : Nat) (eqHost : Bool) (R : α → Prop) (hsw : 0 < sw)
    (hcond : eqHost = true ∨ dw = sw) (hR : srcOk next sw R)
    (s : AccState α) (hs : emptyAcc R s) :
    processBits next sw dw (8 * sw) eqHost s =
      processWord next dw eqHost s :=
  processBits_eq_processWord next sw dw eqHost hsw hcond s hs.1 hs.2.1
    (fun w a2 hn => (hR s.src w a2 hs.2.2 hn).1)

/-- Loop bodies that agree on an invariant produce equal runs, and the
invariant is preserved across the run. -/
theorem seqRun_congr {α : Type} (P : AccState α → Prop)
    (f g : AccState α → Option (List Nat × AccState α))
    (hfg : ∀ s, P s → f s = g s)
    (hg : ∀ s vs s1, P s → g s = some (vs, s1) → P s1) :
    ∀ (n : Nat) (s : AccState α), P s →
      seqRun f n s = seqRun g n s ∧
      (∀ vs s1, seqRun g n s = some (vs, s1) → P s1) := by
  intro n
  induction n with
  | zero =>
    intro s hs
    refine ⟨rfl, ?_⟩
    intro vs s1 h
    simp only [seqRun, Option.some.injEq, Prod.mk.injEq] at h
    rw [← h.2]
    exact hs
  | succ n ih =>
    intro s hs
    have hstep : f s = g s := hfg s hs
    refine ⟨?_, ?_⟩
    · simp only [seqRun, hstep]
      cases hg1 : g s with
      | none => rfl
      | some p =>
        obtain ⟨vs, s1⟩ := p
        have hP1 : P s1 := hg s vs s1 hs hg1
        simp only [(ih s1 hP1).1]
    · intro vs s1 hrun
      simp only [seqRun] at hrun
      cases hg1 : g s with
      | none => rw [hg1] at hrun; exact absurd hrun (by simp)
      | some p =>
        obtain ⟨vs0, s0⟩ := p
        rw [hg1] at hrun
        simp only [] at hrun
        have hP0 : P s0 := hg s vs0 s0 hs hg1
        cases hrun2 : seqRun g n s0 with
        | none => rw [hrun2] at hrun; exact absurd hrun (by simp)
        | some q =>
          obtain ⟨rest, s2⟩ := q
          rw [hrun2] at hrun
          simp only [Option.some.injEq, Prod.mk.injEq] at hrun
          rw [← hrun.2]
          exact (ih s0 hP0).2 rest s2 hrun2

/-- Congruence of the one-sample loop body. -/
theorem sample1_congr {α : Type} (P : AccState α → Prop)
    (f g : AccState α → Option (Nat × AccState α))
    (hfg : ∀ s, P s → f s = g s) (s : AccState α) (hs : P s) :
    sample1 f s = sample1 g s := by
  unfold sample1
  rw [hfg s hs]

/-- The one-sample loop body preserves any invariant its processor
preserves. -/
theorem sample1_pres {α : Type} (P : AccState α → Prop)
    (g : AccState α → Option (Nat × AccState α))
    (hg : ∀ s v s1, P s → g s = some (v, s1) → P s1)
    (s : AccState α) (vs : List Nat) (s1 : AccState α) (hs : P s)
    (h : sample1 g s = some (vs, s1)) : P s1 := by
  unfold sample1 at h
  cases hgs : g s with
  | none => rw [hgs] at h; exact absurd h (by simp)
  | some p =>
    obtain ⟨v, s2⟩ := p
    rw [hgs] at h
    simp only [Option.some.injEq, Prod.mk.injEq] at h
    rw [← h.2]
    exact hg s v s2 hs hgs

/-- Invariant preservation across a loop run. -/
theorem seqRun_pres {α : Type} (P : AccState α → Prop)
    (g : AccState α → Option (List Nat × AccState α))
    (hg : ∀ s vs s1, P s → g s = some (vs, s1) → P s1)
    (n : Nat) (s : AccState α) (vs : List Nat) (s1 : AccState α)
    (hs : P s) (h : seqRun g n s = some (vs, s1)) : P s1 :=
  (seqRun_congr P g g (fun _ _ => rfl) hg n s hs).2 vs s1 h

/-- Congruence of `loop_by_row_col_chan` for processors that agree on a
preserved invariant. -/
theorem loopRowColChan_congr {α : Type} (P : AccState α → Prop)
    (f g : AccState α → Option (Nat × AccState α))
    (hfg : ∀ s, P s → f s = g s)
    (hg : ∀ s v s1, P s → g s = some (v, s1) → P s1)
    (hflush : ∀ s, P s → P (flushRow s))
    (height width channels : Nat) (s : AccState α) (hs : P s) :
    loopRowColChan f height width channels s =
      loopRowColChan g height width channels s := by
  unfold loopRowColChan
  have hs1 := seqRun_congr P (sample1 f) (sample1 g)
    (sample1_congr P f g hfg) (sample1_pres P g hg)
  have hs2 := seqRun_congr P (seqRun (sample1 f) channels)
    (seqRun (sample1 g) channels)
    (fun s hs => (hs1 channels s hs).1)
    (fun s vs s1 hs h => (hs1 channels s hs).2 vs s1 h)
  refine (seqRun_congr P _ _ ?_ ?_ height s hs).1
  · intro s2 hs2c
    rw [(hs2 width s2 hs2c).1]
  · intro s2 vs s1 hs2c h
    simp only [] at h
    cases hin : seqRun (seqRun (sample1 g) channels) width s2 with
    | none => rw [hin] at h; exact absurd h (by simp)
    | some p =>
      obtain ⟨vs0, s0⟩ := p
      rw [hin] at h
      simp only [Option.some.injEq, Prod.mk.injEq] at h
      rw [← h.2]
      exact hflush s0 ((hs2 width s2 hs2c).2 vs0 s0 hin)

/-- Congruence of `loop_by_chan_row_col` for processors that agree on a
preserved invariant. -/
theorem loopChanRowCol_congr {α : Type} (P : AccState α → Prop)
    (f g : AccState α → Option (Nat × AccState α))
    (hfg : ∀ s, P s → f s = g s)
    (hg : ∀ s v s1, P s → g s = some (v, s1) → P s1)
    (hflush : ∀ s, P s → P (flushRow s))
    (height width channels : Nat) (s : AccState α) (hs : P s) :
    loopChanRowCol f height width channels s =
      loopChanRowCol g height width channels s := by
  unfold loopChanRowCol
  have hs1 := seqRun_congr P (sample1 f) (sample1 g)
    (sample1_congr P f g hfg) (sample1_pres P g hg)
  refine (seqRun_congr P _ _ ?_ ?_ channels s hs).1
  · intro s2 hs2c
    refine (seqRun_congr P _ _ ?_ ?_ height s2 hs2c).1
    · intro s3 hs3
      rw [(hs1 width s3 hs3).1]
    · intro s3 vs s4 hs3 h
      simp only [] at h
      cases hin : seqRun (sample1 g) width s3 with
      | none => rw [hin] at h; exact absurd h (by simp)
      | some p =>
        obtain ⟨vs0, s0⟩ := p
        rw [hin] at h
        simp only [Option.some.injEq, Prod.mk.injEq] at h
        rw [← h.2]
        exact hflush s0 ((hs1 width s3 hs3).2 vs0 s0 hin)
  · intro s2 vs s1 hs2c h
    simp only [] at h
    refine seqRun_pres P _ ?_ height s2 vs s1 hs2c h
    intro s3 vs2 s4 hs3 h2
    simp only [] at h2
    cases hin : seqRun (sample1 g) width s3 with
    | none => rw [hin] at h2; exact absurd h2 (by simp)
    | some p =>
      obtain ⟨vs0, s0⟩ := p
      rw [hin] at h2
      simp only [Option.some.injEq, Prod.mk.injEq] at h2
      rw [← h2.2]
      exact hflush s0 ((hs1 width s3 hs3).2 vs0 s0 hin)

/-- Congruence of `copyPixels` (specialized runs) for processors that
agree on a preserved invariant. -/
theorem copyPixelsRun_congr (P : AccState (List Nat) → Prop)
    (f g : AccState (List Nat) → Option (Nat × AccState (List Nat)))
    (hfg : ∀ s, P s → f s = g s)
    (hg : ∀ s v s1, P s → g s = some (v, s1) → P s1)
    (hflush : ∀ s, P s → P (flushRow s))
    (isPlanar : Bool) (height width channels : Nat) (words : List Nat)
    (hs : P ⟨words, 0, 0⟩) :
    copyPixelsRun f isPlanar height width channels words =
      copyPixelsRun g isPlanar height width channels words := by
  unfold copyPixelsRun
  cases isPlanar with
  | false =>
    simp only [Bool.false_eq_true, if_false]
    rw [loopRowColChan_congr P f g hfg hg hflush height width channels _ hs]
  | true =>
    simp only [if_true]
    rw [loopChanRowCol_congr P f g hfg hg hflush height width channels _ hs]

/-- Congruence of one tile row for processors that agree on a preserved
invariant stable under rebasing the row pointer. -/
theorem tileRow_congr (P : AccState Nat → Prop)
    (f g : AccState Nat → Option (Nat × AccState Nat))
    (hfg : ∀ s, P s → f s = g s)
    (hg : ∀ s v s1, P s → g s = some (v, s1) → P s1)
    (hflush : ∀ s, P s → P (flushRow s))
    (hrebase : ∀ base s, P s → P ⟨base, s.countAvail, s.bitsAvail⟩)
    (tw ch base : Nat) (s : AccState Nat) (hs : P s) :
    tileRow f tw ch base s = tileRow g tw ch base s ∧
    (∀ vs s1, tileRow g tw ch base s = some (vs, s1) → P s1) := by
  unfold tileRow
  have hs1 := seqRun_congr P (sample1 f) (sample1 g)
    (sample1_congr P f g hfg) (sample1_pres P g hg)
  have hs2 := seqRun_congr P (seqRun (sample1 f) ch) (seqRun (sample1 g) ch)
    (fun s hs => (hs1 ch s hs).1)
    (fun s vs s1 hs h => (hs1 ch s hs).2 vs s1 h)
  have hP0 : P ⟨base, s.countAvail, s.bitsAvail⟩ := hrebase base s hs
  constructor
  · rw [(hs2 tw _ hP0).1]
  · intro vs s1 h
    cases hin : seqRun (seqRun (sample1 g) ch) tw
        ⟨base, s.countAvail, s.bitsAvail⟩ with
    | none => rw [hin] at h; exact absurd h (by simp)
    | some p =>
      obtain ⟨vs0, s0⟩ := p
      rw [hin] at h
      simp only [Option.some.injEq, Prod.mk.injEq] at h
      rw [← h.2]
      exact hflush s0 ((hs2 tw _ hP0).2 vs0 s0 hin)

/-- Congruence of the tile rows loop. -/
theorem tileRows_congr (P : AccState Nat → Prop)
    (f g : AccState Nat → Option (Nat × AccState Nat))
    (hfg : ∀ s, P s → f s = g s)
    (hg : ∀ s v s1, P s → g s = some (v, s1) → P s1)
    (hflush : ∀ s, P s → P (flushRow s))
    (hrebase : ∀ base s, P s → P ⟨base, s.countAvail, s.bitsAvail⟩)
    (tw ch stride : Nat) :
    ∀ (r base : Nat) (s : AccState Nat), P s →
      tileRows f tw ch stride r base s = tileRows g tw ch stride r base s ∧
      (∀ vs s1, tileRows g tw ch stride r base s = some (vs, s1) → P s1) := by
  intro r
  induction r with
  | zero =>
    intro base s hs
    refine ⟨rfl, ?_⟩
    intro vs s1 h
    simp only [tileRows, Option.some.injEq, Prod.mk.injEq] at h
    rw [← h.2]
    exact hs
  | succ r ih =>
    intro base s hs
    have hrow := tileRow_congr P f g hfg hg hflush hrebase tw ch base s hs
    refine ⟨?_, ?_⟩
    · simp only [tileRows, hrow.1]
      cases h1 : tileRow g tw ch base s with
      | none => rfl
      | some p =>
        obtain ⟨vs, s1⟩ := p
        have hP1 := hrow.2 vs s1 h1
        simp only [(ih (base + stride) s1 hP1).1]
    · intro vs s1 h
      simp only [tileRows] at h
      cases h1 : tileRow g tw ch base s with
      | none => rw [h1] at h; exact absurd h (by simp)
      | some p =>
        obtain ⟨vs0, s0⟩ := p
        rw [h1] at h
        simp only [] at h
        cases h2 : tileRows g tw ch stride r (base + stride) s0 with
        | none => rw [h2] at h; exact absurd h (by simp)
        | some q =>
          obtain ⟨rest, s2⟩ := q
          rw [h2] at h
          simp only [Option.some.injEq, Prod.mk.injEq] at h
          rw [← h.2]
          exact (ih (base + stride) s0 (hrow.2 vs0 s0 h1)).2 rest s2 h2

/-- Congruence of the tile planes loop. -/
theorem tilePlanes_congr (P : AccState Nat → Prop)
    (f g : AccState Nat → Option (Nat × AccState Nat))
    (hfg : ∀ s, P s → f s = g s)
    (hg : ∀ s v s1, P s → g s = some (v, s1) → P s1)
    (hflush : ∀ s, P s → P (flushRow s))
    (hrebase : ∀ base s, P s → P ⟨base, s.countAvail, s.bitsAvail⟩)
    (th tw ch stride : Nat) :
    ∀ (p base : Nat) (s : AccState Nat), P s →
      tilePlanes f th tw ch stride p base s =
        tilePlanes g th tw ch stride p base s ∧
      (∀ vs s1, tilePlanes g th tw ch stride p base s = some (vs, s1) →
        P s1) := by
  intro p
  induction p with
  | zero =>
    intro base s hs
    refine ⟨rfl, ?_⟩
    intro vs s1 h
    simp only [tilePlanes, Option.some.injEq, Prod.mk.injEq] at h
    rw [← h.2]
    exact hs
  | succ p ih =>
    intro base s hs
    have hrows := tileRows_congr P f g hfg hg hflush hrebase tw ch stride
      th base s hs
    refine ⟨?_, ?_⟩
    · simp only [tilePlanes, hrows.1]
      cases h1 : tileRows g tw ch stride th base s with
      | none => rfl
      | some q =>
        obtain ⟨vs, s1⟩ := q
        have hP1 := hrows.2 vs s1 h1
        simp only [(ih (base + th * stride) s1 hP1).1]
    · intro vs s1 h
      simp only [tilePlanes] at h
      cases h1 : tileRows g tw ch stride th base s with
      | none => rw [h1] at h; exact absurd h (by simp)
      | some q =>
        obtain ⟨vs0, s0⟩ := q
        rw [h1] at h
        simp only [] at h
        cases h2 : tilePlanes g th tw ch stride p (base + th * stride) s0 with
        | none => rw [h2] at h; exact absurd h (by simp)
        | some q2 =>
          obtain ⟨rest, s2⟩ := q2
          rw [h2] at h
          simp only [Option.some.injEq, Prod.mk.injEq] at h
          rw [← h.2]
          exact (ih (base + th * stride) s0 (hrows.2 vs0 s0 h1)).2 rest s2 h2

/-- Congruence of `copyTile` (specialized runs) for processors that
agree on a preserved invariant. -/
theorem copyTileRun_congr (P : AccState Nat → Prop)
    (f g : AccState Nat → Option (Nat × AccState Nat))
    (hfg : ∀ s, P s → f s = g s)
    (hg : ∀ s v s1, P s → g s = some (v, s1) → P s1)
    (hflush : ∀ s, P s → P (flushRow s))
    (hrebase : ∀ base s, P s → P ⟨base, s.countAvail, s.bitsAvail⟩)
    (planes th tw ch stride : Nat) (hs : P ⟨0, 0, 0⟩) :
    copyTileRun f planes th tw ch stride =
      copyTileRun g planes th tw ch stride := by
  unfold copyTileRun
  rw [(tilePlanes_congr P f g hfg hg hflush hrebase th tw ch stride planes
    0 ⟨0, 0, 0⟩ hs).1]

/-- The strip word source is well formed when every word of the chunk is
inside the source width. -/
theorem srcOk_nextWord (sw : Nat) :
    srcOk nextWord sw (fun l => ∀ w ∈ l, w < 2 ^ (8 * sw)) := by
  intro a w2 a2 hQ hn
  cases a with
  | nil => simp [nextWord] at hn
  | cons w ws =>
    simp only [nextWord, Option.some.injEq, Prod.mk.injEq] at hn
    obtain ⟨h1, h2⟩ := hn
    constructor
    · rw [← h1]
      exact hQ w (List.mem_cons_self _ _)
    · rw [← h2]
      intro x hx
      exact hQ x (List.mem_cons_of_mem _ hx)

/-- The tile word source is well formed when the tile buffer holds
bytes. -/
theorem srcOk_nextTileWord (hl : Bool) (tile : List Nat) (sw : Nat)
    (htile : ∀ b ∈ tile, b < 256) :
    srcOk (nextTileWord hl tile sw) sw (fun _ => True) := by
  intro a w2 a2 _ hn
  simp only [nextTileWord, Option.some.injEq, Prod.mk.injEq] at hn
  refine ⟨?_, trivial⟩
  rw [← hn.1]
  unfold wordAt
  refine decMem_lt_of_le (fun b hb => htile b (bytesAt_subset _ hb)) ?_
  simp only [bytesAt, List.length_take]
  omega

/-- C1 (corrected): when `bitsPerSample` equals the source word width,
the fast path (`process_word`) of both `copyPixels` (planar and
contiguous) and `copyTile` produces exactly the sample sequence the
slow-path bit accumulator (`process_bits`) would produce on the same
input — provided the file byte order equals the host order or the
destination word width equals the source word width.  (Without that side
condition the paths differ: the fast path byte-swaps the value as the
destination type, the slow path as the source type.) -/
theorem claim_C1_fast_slow_equiv (sw dw : Nat) (isPlanar eqHost hl : Bool)
    (height width channels planes th tw ch stride : Nat)
    (words tile : List Nat) (hsw : 0 < sw)
    (hcond : eqHost = true ∨ dw = sw)
    (hwords : ∀ w ∈ words, w < 2 ^ (8 * sw))
    (htile : ∀ b ∈ tile, b < 256) :
    copyPixels sw dw (8 * sw) isPlanar eqHost height width channels words =
      copyPixelsRun (processBits nextWord sw dw (8 * sw) eqHost)
        isPlanar height width channels words ∧
    copyTile hl sw dw (8 * sw) eqHost tile planes th tw ch stride =
      copyTileRun (processBits (nextTileWord hl tile sw) sw dw (8 * sw)
        eqHost) planes th tw ch stride := by
  constructor
  · unfold copyPixels
    rw [if_pos rfl]
    exact (copyPixelsRun_congr
      (emptyAcc (fun l => ∀ w ∈ l, w < 2 ^ (8 * sw)))
      (processBits nextWord sw dw (8 * sw) eqHost)
      (processWord nextWord dw eqHost)
      (processBits_fast nextWord sw dw eqHost _ hsw hcond (srcOk_nextWord sw))
      (processWord_empty nextWord sw dw eqHost _ (srcOk_nextWord sw))
      (flushRow_empty _)
      isPlanar height width channels words ⟨rfl, rfl, hwords⟩).symm
  · unfold copyTile
    rw [if_pos rfl]
    exact (copyTileRun_congr (emptyAcc (fun _ : Nat => True))
      (processBits (nextTileWord hl tile sw) sw dw (8 * sw) eqHost)
      (processWord (nextTileWord hl tile sw) dw eqHost)
      (processBits_fast (nextTileWord hl tile sw) sw dw eqHost _ hsw hcond
        (srcOk_nextTileWord hl tile sw htile))
      (processWord_empty (nextTileWord hl tile sw) sw dw eqHost _
        (srcOk_nextTileWord hl tile sw htile))
      (flushRow_empty _)
      (fun base s hs => ⟨hs.1, hs.2.1, trivial⟩)
      planes th tw ch stride ⟨rfl, rfl, trivial⟩).symm

/-- C1 witness: a concrete 1×1×1 image and 1×1 tile where the fast path
agrees with the slow path. -/
theorem claim_C1_fast_slow_equiv_witness :
    (0 < 1 ∧ (true = true ∨ 1 = 1) ∧ (∀ w ∈ [7], w < 2 ^ (8 * 1)) ∧
      (∀ b ∈ [5], b < 256)) ∧
    (copyPixels 1 1 (8 * 1) false true 1 1 1 [7] =
      copyPixelsRun (processBits nextWord 1 1 (8 * 1) true) false 1 1 1
        [7] ∧
     copyTile false 1 1 (8 * 1) true [5] 1 1 1 1 1 =
      copyTileRun (processBits (nextTileWord false [5] 1) 1 1 (8 * 1) true)
        1 1 1 1 1) :=
  ⟨⟨by decide, Or.inl rfl, by decide, by decide⟩,
   claim_C1_fast_slow_equiv 1 1 false true false 1 1 1 1 1 1 1 1 [7] [5]
     (by decide) (Or.inl rfl) (by decide) (by decide)⟩

/-- C1 counterexample: with a byte-swapped file and a destination type
wider than the source type (`uint8` source, `uint16` destination,
`bitsPerSample = 8`), the fast path byte-swaps the widened value as the
destination type (`0x12 ↦ 0x1200`) while the slow path byte-swaps the
source word as the source type (`0x12 ↦ 0x12`), so the two paths emit
different samples. -/
theorem claim_C1_counterexample :
    copyPixels 1 2 (8 * 1) false false 1 1 1 [18] ≠
      copyPixelsRun (processBits nextWord 1 2 (8 * 1) false) false 1 1 1
        [18] := by
  have hslow : bitsLoop nextWord 1 2 (8 * 1) false 0 0 ⟨[18], 0, 0⟩ =
      some (18, ⟨[], 0, 0⟩) := by
    unfold bitsLoop
    norm_num [nextWord, swapVal]
    unfold bitsLoop
    norm_num [Nat.shiftLeft_eq]
  have hrhs : copyPixelsRun (processBits nextWord 1 2 (8 * 1) false)
      false 1 1 1 [18] = some [18] := by
    unfold copyPixelsRun loopRowColChan
    norm_num [seqRun, sample1, processBits, hslow, flushRow]
  have hlhs : copyPixels 1 2 (8 * 1) false false 1 1 1 [18] =
      some [4608] := by decide
  rw [hlhs, hrhs]
  decide

/-- One-step unfolding of a loop run. -/
theorem seqRun_succ {α : Type}
    (body : AccState α → Option (List Nat × AccState α)) (n : Nat)
    (s : AccState α) :
    seqRun body (n + 1) s =
      match body s with
      | none => none
      | some (vs, s1) =>
        match seqRun body n s1 with
        | none => none
        | some (rest, s2) => some (vs ++ rest, s2) := rfl

/-- Under the accumulator invariant, the row flush always leaves an
empty accumulator (the `countAvail = 0` branch skips the reset, but the
invariant forces `bitsAvail = 0` there). -/
theorem flushRow_reset {α : Type} (sw : Nat) (s : AccState α)
    (hinv : accInv sw s) :
    (flushRow s).countAvail = 0 ∧ (flushRow s).bitsAvail = 0 := by
  unfold flushRow
  by_cases h : 0 < s.countAvail
  · rw [if_pos h]
    exact ⟨rfl, rfl⟩
  · rw [if_neg h]
    have hca : s.countAvail = 0 := by omega
    exact ⟨hca, accInv_zero hinv hca⟩

/-- The row flush preserves the accumulator invariant. -/
theorem flushRow_accInv {α : Type} (sw : Nat) (s : AccState α)
    (hinv : accInv sw s) : accInv sw (flushRow s) := by
  unfold flushRow
  by_cases h : 0 < s.countAvail
  · rw [if_pos h]
    refine ⟨?_, ?_, ?_⟩
    · show (0:Nat) ≤ 8 * sw
      omega
    · show (0:Nat) < 2 ^ (8 * sw)
      exact Nat.pos_pow_of_pos _ (by norm_num)
    · show (0:Nat) % 2 ^ (8 * sw - 0) = 0
      simp
  · rw [if_neg h]
    exact hinv

/-- The row flush does not move the source pointer. -/
theorem flushRow_src {α : Type} (s : AccState α) :
    (flushRow s).src = s.src := by
  unfold flushRow
  by_cases h : 0 < s.countAvail
  · rw [if_pos h]
  · rw [if_neg h]

/-- `process_bits` preserves the accumulator invariant and the source
predicate. -/
theorem processBits_pres {α : Type} (next : α → Option (Nat × α))
    (sw dw bps : Nat) (eqHost : Bool) (Q : α → Prop)
    (hQ : srcOk next sw Q) (s : AccState α) (v : Nat) (s1 : AccState α)
    (hs : accInv sw s ∧ Q s.src)
    (h : processBits next sw dw bps eqHost s = some (v, s1)) :
    accInv sw s1 ∧ Q s1.src :=
  bitsLoop_inv next sw dw eqHost Q hQ bps bps 0 0 s v s1 (by omega)
    hs.1 hs.2 h

/-- In a run of `r + 1` loop-body iterations, the final state is the
last body's output; if every body output has an empty accumulator, so
does the run's final state. -/
theorem seqRun_last {α : Type} (P : AccState α → Prop)
    (body : AccState α → Option (List Nat × AccState α))
    (hpres : ∀ s vs s1, P s → body s = some (vs, s1) → P s1)
    (hempty : ∀ s vs s1, P s → body s = some (vs, s1) →
      s1.countAvail = 0 ∧ s1.bitsAvail = 0) :
    ∀ (r : Nat) (s : AccState α) (vs : List Nat) (s1 : AccState α),
      P s → seqRun body (r + 1) s = some (vs, s1) →
      s1.countAvail = 0 ∧ s1.bitsAvail = 0 := by
  intro r
  induction r with
  | zero =>
    intro s vs s1 hs h
    simp only [seqRun] at h
    cases h1 : body s with
    | none => rw [h1] at h; exact absurd h (by simp)
    | some p =>
      obtain ⟨vs0, s0⟩ := p
      rw [h1] at h
      simp only [Option.some.injEq, Prod.mk.injEq] at h
      rw [← h.2]
      exact hempty s vs0 s0 hs h1
  | succ r ih =>
    intro s vs s1 hs h
    rw [seqRun_succ] at h
    cases h1 : body s with
    | none => rw [h1] at h; exact absurd h (by simp)
    | some p =>
      obtain ⟨vs0, s0⟩ := p
      rw [h1] at h
      simp only [] at h
      cases h2 : seqRun body (r + 1) s0 with
      | none => rw [h2] at h; exact absurd h (by simp)
      | some q =>
        obtain ⟨rest, s2⟩ := q
        rw [h2] at h
        simp only [Option.some.injEq, Prod.mk.injEq] at h
        rw [← h.2]
        exact ih s0 rest s2 (hpres s vs0 s0 hs h1) h2

/-- One-step unfolding of the tile rows loop. -/
theorem tileRows_succ (proc : AccState Nat → Option (Nat × AccState Nat))
    (tw ch stride r base : Nat) (s : AccState Nat) :
    tileRows proc tw ch stride (r + 1) base s =
      match tileRow proc tw ch base s with
      | none => none
      | some (vs, s1) =>
        match tileRows proc tw ch stride r (base + stride) s1 with
        | none => none
        | some (rest, s2) => some (vs ++ rest, s2) := rfl

/-- In a run of `r + 1` tile rows, if every row's output state has an
empty accumulator, so does the final state. -/
theorem tileRows_last (P : AccState Nat → Prop)
    (proc : AccState Nat → Option (Nat × AccState Nat))
    (tw ch stride : Nat)
    (hpres : ∀ base s vs s1, P s → tileRow proc tw ch base s =
      some (vs, s1) → P s1)
    (hempty : ∀ base s vs s1, P s → tileRow proc tw ch base s =
      some (vs, s1) → s1.countAvail = 0 ∧ s1.bitsAvail = 0) :
    ∀ (r base : Nat) (s : AccState Nat) (vs : List Nat)
      (s1 : AccState Nat), P s →
      tileRows proc tw ch stride (r + 1) base s = some (vs, s1) →
      s1.countAvail = 0 ∧ s1.bitsAvail = 0 := by
  intro r
  induction r with
  | zero =>
    intro base s vs s1 hs h
    rw [tileRows_succ] at h
    cases h1 : tileRow proc tw ch base s with
    | none => rw [h1] at h; exact absurd h (by simp)
    | some p =>
      obtain ⟨vs0, s0⟩ := p
      rw [h1] at h
      simp only [tileRows, Option.some.injEq, Prod.mk.injEq] at h
      rw [← h.2]
      exact hempty base s vs0 s0 hs h1
  | succ r ih =>
    intro base s vs s1 hs h
    rw [tileRows_succ] at h
    cases h1 : tileRow proc tw ch base s with
    | none => rw [h1] at h; exact absurd h (by simp)
    | some p =>
      obtain ⟨vs0, s0⟩ := p
      rw [h1] at h
      simp only [] at h
      cases h2 : tileRows proc tw ch stride (r + 1) (base + stride) s0 with
      | none => rw [h2] at h; exact absurd h (by simp)
      | some q =>
        obtain ⟨rest, s2⟩ := q
        rw [h2] at h
        simp only [Option.some.injEq, Prod.mk.injEq] at h
        rw [← h.2]
        exact ih (base + stride) s0 rest s2 (hpres base s vs0 s0 hs h1) h2

/-- C2: the slow-path bit unpacker resets the accumulator at every row
boundary.  After each completed row — in the contiguous
`loop_by_row_col_chan`, in the per-channel row loop of planar
`loop_by_chan_row_col` (the second conjunct exhibits the planar loop as
channels of exactly that row loop), and in the tile rows loop of
`copyTile` — the state carried into the next row has `countAvail = 0`
and `bitsAvail = 0`: partial trailing bits are discarded and never cross
a row boundary. -/
theorem claim_C2_row_reset {α : Type} (next : α → Option (Nat × α))
    (sw dw bps : Nat) (eqHost hl : Bool) (Q : α → Prop)
    (hQ : srcOk next sw Q) (width channels tw ch stride : Nat)
    (tile : List Nat) (htile : ∀ b ∈ tile, b < 256) :
    (∀ (r : Nat) (s : AccState α) (vs : List Nat) (s1 : AccState α),
      accInv sw s → Q s.src →
      loopRowColChan (processBits next sw dw bps eqHost) (r + 1) width
        channels s = some (vs, s1) →
      s1.countAvail = 0 ∧ s1.bitsAvail = 0) ∧
    (∀ (height : Nat) (s0 : AccState α),
      loopChanRowCol (processBits next sw dw bps eqHost) height width
        channels s0 =
      seqRun (fun s =>
        seqRun (fun s2 =>
          match seqRun (sample1 (processBits next sw dw bps eqHost))
              width s2 with
          | none => none
          | some (vs2, s3) => some (vs2, flushRow s3)) height s)
        channels s0) ∧
    (∀ (r : Nat) (s : AccState α) (vs : List Nat) (s1 : AccState α),
      accInv sw s → Q s.src →
      seqRun (fun s2 =>
        match seqRun (sample1 (processBits next sw dw bps eqHost)) width
            s2 with
        | none => none
        | some (vs2, s3) => some (vs2, flushRow s3)) (r + 1) s =
        some (vs, s1) →
      s1.countAvail = 0 ∧ s1.bitsAvail = 0) ∧
    (∀ (r base : Nat) (s : AccState Nat) (vs : List Nat)
       (s1 : AccState Nat), accInv sw s →
      tileRows (processBits (nextTileWord hl tile sw) sw dw bps eqHost)
        tw ch stride (r + 1) base s = some (vs, s1) →
      s1.countAvail = 0 ∧ s1.bitsAvail = 0) := by
  have hsamp := sample1_pres (fun s : AccState α => accInv sw s ∧ Q s.src)
    (processBits next sw dw bps eqHost)
    (processBits_pres next sw dw bps eqHost Q hQ)
  refine ⟨?_, ?_, ?_, ?_⟩
  · intro r s vs s1 hinv hq hrun
    unfold loopRowColChan at hrun
    refine seqRun_last (fun s => accInv sw s ∧ Q s.src) _ ?_ ?_ r s vs s1
      ⟨hinv, hq⟩ hrun
    · intro s2 vs2 s3 hs2 h2
      simp only [] at h2
      cases hin : seqRun (seqRun (sample1
          (processBits next sw dw bps eqHost)) channels) width s2 with
      | none => rw [hin] at h2; exact absurd h2 (by simp)
      | some p =>
        obtain ⟨vs0, s0⟩ := p
        rw [hin] at h2
        simp only [Option.some.injEq, Prod.mk.injEq] at h2
        have hP0 : accInv sw s0 ∧ Q s0.src := by
          refine seqRun_pres (fun s => accInv sw s ∧ Q s.src) _ ?_
            width s2 vs0 s0 hs2 hin
          intro s4 vs4 s5 hs4 h4
          exact seqRun_pres _ _ hsamp channels s4 vs4 s5 hs4 h4
        rw [← h2.2]
        refine ⟨flushRow_accInv sw s0 hP0.1, ?_⟩
        rw [flushRow_src]
        exact hP0.2
    · intro s2 vs2 s3 hs2 h2
      simp only [] at h2
      cases hin : seqRun (seqRun (sample1
          (processBits next sw dw bps eqHost)) channels) width s2 with
      | none => rw [hin] at h2; exact absurd h2 (by simp)
      | some p =>
        obtain ⟨vs0, s0⟩ := p
        rw [hin] at h2
        simp only [Option.some.injEq, Prod.mk.injEq] at h2
        have hP0 : accInv sw s0 ∧ Q s0.src := by
          refine seqRun_pres (fun s => accInv sw s ∧ Q s.src) _ ?_
            width s2 vs0 s0 hs2 hin
          intro s4 vs4 s5 hs4 h4
          exact seqRun_pres _ _ hsamp channels s4 vs4 s5 hs4 h4
        rw [← h2.2]
        exact flushRow_reset sw s0 hP0.1
  · intro height s0
    rfl
  · intro r s vs s1 hinv hq hrun
    refine seqRun_last (fun s => accInv sw s ∧ Q s.src) _ ?_ ?_ r s vs s1
      ⟨hinv, hq⟩ hrun
    · intro s2 vs2 s3 hs2 h2
      simp only [] at h2
      cases hin : seqRun (sample1 (processBits next sw dw bps eqHost))
          width s2 with
      | none => rw [hin] at h2; exact absurd h2 (by simp)
      | some p =>
        obtain ⟨vs0, s0⟩ := p
        rw [hin] at h2
        simp only [Option.some.injEq, Prod.mk.injEq] at h2
        have hP0 : accInv sw s0 ∧ Q s0.src :=
          seqRun_pres _ _ hsamp width s2 vs0 s0 hs2 hin
        rw [← h2.2]
        refine ⟨flushRow_accInv sw s0 hP0.1, ?_⟩
        rw [flushRow_src]
        exact hP0.2
    · intro s2 vs2 s3 hs2 h2
      simp only [] at h2
      cases hin : seqRun (sample1 (processBits next sw dw bps eqHost))
          width s2 with
      | none => rw [hin] at h2; exact absurd h2 (by simp)
      | some p =>
        obtain ⟨vs0, s0⟩ := p
        rw [hin] at h2
        simp only [Option.some.injEq, Prod.mk.injEq] at h2
        have hP0 : accInv sw s0 ∧ Q s0.src :=
          seqRun_pres _ _ hsamp width s2 vs0 s0 hs2 hin
        rw [← h2.2]
        exact flushRow_reset sw s0 hP0.1
  · intro r base s vs s1 hinv hrun
    have hsampT := sample1_pres
      (fun s : AccState Nat => accInv sw s ∧ True)
      (processBits (nextTileWord hl tile sw) sw dw bps eqHost)
      (processBits_pres (nextTileWord hl tile sw) sw dw bps eqHost
        (fun _ => True) (srcOk_nextTileWord hl tile sw htile))
    refine tileRows_last (fun s => accInv sw s ∧ True) _ tw ch stride
      ?_ ?_ r base s vs s1 ⟨hinv, trivial⟩ hrun
    · intro base2 s2 vs2 s3 hs2 h2
      unfold tileRow at h2
      cases hin : seqRun (seqRun (sample1
          (processBits (nextTileWord hl tile sw) sw dw bps eqHost)) ch)
          tw ⟨base2, s2.countAvail, s2.bitsAvail⟩ with
      | none => rw [hin] at h2; exact absurd h2 (by simp)
      | some p =>
        obtain ⟨vs0, s0⟩ := p
        rw [hin] at h2
        simp only [Option.some.injEq, Prod.mk.injEq] at h2
        have hPr : accInv sw
            (⟨base2, s2.countAvail, s2.bitsAvail⟩ : AccState Nat) ∧
            True := ⟨hs2.1, trivial⟩
        have hP0 : accInv sw s0 ∧ True := by
          refine seqRun_pres (fun s => accInv sw s ∧ True) _ ?_
            tw _ vs0 s0 hPr hin
          intro s4 vs4 s5 hs4 h4
          exact seqRun_pres _ _ hsampT ch s4 vs4 s5 hs4 h4
        rw [← h2.2]
        exact ⟨flushRow_accInv sw s0 hP0.1, trivial⟩
    · intro base2 s2 vs2 s3 hs2 h2
      unfold tileRow at h2
      cases hin : seqRun (seqRun (sample1
          (processBits (nextTileWord hl tile sw) sw dw bps eqHost)) ch)
          tw ⟨base2, s2.countAvail, s2.bitsAvail⟩ with
      | none => rw [hin] at h2; exact absurd h2 (by simp)
      | some p =>
        obtain ⟨vs0, s0⟩ := p
        rw [hin] at h2
        simp only [Option.some.injEq, Prod.mk.injEq] at h2
        have hPr : accInv sw
            (⟨base2, s2.countAvail, s2.bitsAvail⟩ : AccState Nat) ∧
            True := ⟨hs2.1, trivial⟩
        have hP0 : accInv sw s0 ∧ True := by
          refine seqRun_pres (fun s => accInv sw s ∧ True) _ ?_
            tw _ vs0 s0 hPr hin
          intro s4 vs4 s5 hs4 h4
          exact seqRun_pres _ _ hsampT ch s4 vs4 s5 hs4 h4
        rw [← h2.2]
        exact flushRow_reset sw s0 hP0.1

/-- C2 witness: one concrete row (one byte-wide source word `5`,
4 bits per sample, a 1×1 row) ends with an empty accumulator. -/
theorem claim_C2_row_reset_witness :
    (accInv 1 (⟨[5], 0, 0⟩ : AccState (List Nat)) ∧
      (∀ w ∈ [5], w < 2 ^ (8 * 1)) ∧
      srcOk nextWord 1 (fun l => ∀ w ∈ l, w < 2 ^ (8 * 1)) ∧
      (∀ b ∈ [3], b < 256) ∧
      loopRowColChan (processBits nextWord 1 1 4 true) (0 + 1) 1 1
        ⟨[5], 0, 0⟩ = some ([0], ⟨[], 0, 0⟩)) ∧
    ((⟨[], 0, 0⟩ : AccState (List Nat)).countAvail = 0 ∧
     (⟨[], 0, 0⟩ : AccState (List Nat)).bitsAvail = 0) := by
  have hbl : bitsLoop nextWord 1 1 4 true 0 0 ⟨[5], 0, 0⟩ =
      some (0, ⟨[], 4, 80⟩) := by
    unfold bitsLoop
    norm_num [nextWord, Nat.shiftRight_eq_div_pow]
    unfold bitsLoop
    norm_num [Nat.shiftLeft_eq]
  have hrun : loopRowColChan (processBits nextWord 1 1 4 true) (0 + 1) 1 1
      ⟨[5], 0, 0⟩ = some ([0], ⟨[], 0, 0⟩) := by
    unfold loopRowColChan
    norm_num [seqRun, sample1, processBits, hbl, flushRow]
  refine ⟨⟨⟨by decide, by decide, by decide⟩, by decide, srcOk_nextWord 1,
    by decide, hrun⟩, ?_⟩
  exact (claim_C2_row_reset nextWord 1 1 4 true false
    (fun l => ∀ w ∈ l, w < 2 ^ (8 * 1)) (srcOk_nextWord 1) 1 1 1 1 1 [3]
    (by decide)).1 0 ⟨[5], 0, 0⟩ [0] ⟨[], 0, 0⟩
    ⟨by decide, by decide, by decide⟩ (by decide) hrun

end TiffCraft
